import Mathlib

/-
Verification development for the document chunking/embedding pipeline and the
tool-orchestration decision graph of the sandboxed-agents repository.

Strings of the TypeScript source are modelled as `List Char`; JavaScript string
indices are modelled as `Int` (they can be negative in intermediate states of
the chunking loop of `src/lib/utils/fileProcessing.ts`). JavaScript `number`
values that are used integrally (sizes, offsets) are modelled as `Int`/`Nat`;
the page-number heuristics divide before rounding, which is modelled over `ℚ`.
The while-loops of the two chunkers are modelled with an explicit fuel
parameter: a run that exhausts its fuel returns `none`, so `some` results are
exactly the terminating runs of the source loops.
-/

set_option autoImplicit false

namespace RagCore

/-! ## JavaScript string primitives -/

/-- ASCII whitespace characters recognised by the JavaScript regex class
avoiding unicode spaces, which never occur in the inputs considered here:
space, tab, line feed, carriage return, vertical tab, form feed. -/
def isWS (c : Char) : Bool :=
  c = ' ' || c = '\t' || c = '\n' || c = '\r' || c = '\x0b' || c = '\x0c'

/-- JavaScript `String.prototype.trim` on a character list. -/
def jsTrim (l : List Char) : List Char :=
  ((l.dropWhile isWS).reverse.dropWhile isWS).reverse

/-- Clamp a JavaScript string index into `[0, len]` (the coercion JS applies to
`substring` and `lastIndexOf` position arguments). -/
def clampIdx (len : Nat) (i : Int) : Nat :=
  (max 0 (min i (len : Int))).toNat

/-- JavaScript `String.prototype.substring(a, b)`: both arguments are clamped
into `[0, length]` and swapped when `a > b`. -/
def jsSubstring (l : List Char) (a b : Int) : List Char :=
  (l.take (max (clampIdx l.length a) (clampIdx l.length b))).drop
    (min (clampIdx l.length a) (clampIdx l.length b))

/-- Whether `sep` occurs in `l` starting at position `i`. -/
def occursAt (l sep : List Char) (i : Nat) : Bool :=
  (l.drop i).take sep.length == sep

/-- Search downward from position `i` for the rightmost occurrence of `sep`;
`-1` when there is none. -/
def lastOccurFrom (l sep : List Char) : Nat → Int
  | 0 => if occursAt l sep 0 then 0 else -1
  | i + 1 => if occursAt l sep (i + 1) then ((i : Int) + 1) else lastOccurFrom l sep i

/-- JavaScript `String.prototype.lastIndexOf(sep, fromIndex)`: the start of the
rightmost occurrence of `sep` whose start index is at most the clamped
`fromIndex` (an empty `sep` is found at the clamped position itself). -/
def jsLastIndexOf (l sep : List Char) (fromIdx : Int) : Int :=
  lastOccurFrom l sep (clampIdx l.length fromIdx)

/-! ## Data model (src/lib/utils/types.ts, fields used by the chunkers) -/

structure ChunkMeta where
  startChar : Int
  endChar : Int
  pageNumber : Option Int
  source : String
  documentTitle : String
deriving Repr, DecidableEq

structure Chunk where
  documentId : String
  content : List Char
  metadata : ChunkMeta
  index : Nat
deriving Repr, DecidableEq

structure Doc where
  id : String
  filename : String
  content : List Char
  pageCount : Option Nat
  source : String
deriving Repr, DecidableEq

structure ChunkConfig where
  chunkSize : Int
  chunkOverlap : Int
  separators : List (List Char)
deriving Repr, DecidableEq

/-- The default chunking configuration of both chunkers. -/
def defaultChunkConfig : ChunkConfig :=
  { chunkSize := 1500
  , chunkOverlap := 200
  , separators := [['\n', '\n'], ['\n'], ['.', ' '], [' '], []] }

/-! ## The chunker of src/lib/utils/fileProcessing.ts -/

/-- Model of `createChunkMetadata` from fileProcessing.ts: the page number is
`Math.ceil((startChar / content.length) * pageCount)` when the document has a
page count and `undefined` otherwise (division modelled exactly over `ℚ`;
documents with a page count always have non-empty content in this model). -/
def fpCreateChunkMetadata (doc : Doc) (startChar endChar : Int) : ChunkMeta :=
  { startChar := startChar
  , endChar := endChar
  , pageNumber := doc.pageCount.map fun pc =>
      Int.ceil (((startChar : ℚ) / (doc.content.length : ℚ)) * (pc : ℚ))
  , source := doc.source
  , documentTitle := doc.filename }

/-- One iteration of the separator scan: keep the rightmost `lastIndexOf`
occurrence that lies strictly after `startIndex`, recording the break position
just after that occurrence. -/
def bestBreakStep (text : List Char) (startIndex endIndex bestBreak : Int)
    (sep : List Char) : Int :=
  let lastOccurrence := jsLastIndexOf text sep endIndex
  if lastOccurrence > startIndex ∧ lastOccurrence > bestBreak then
    lastOccurrence + (sep.length : Int)
  else bestBreak

/-- The separator scan of both chunkers: fold the step over the separator list
starting from `-1`. -/
def chunkBestBreak (text : List Char) (seps : List (List Char))
    (startIndex endIndex : Int) : Int :=
  seps.foldl (bestBreakStep text startIndex endIndex) (-1)

/-- The candidate end index of the current window: `min(start + chunkSize, len)`
snapped to the best separator break when it is strictly before the end of the
text. Shared verbatim by both chunker implementations. -/
def chunkEndIndex (text : List Char) (cfg : ChunkConfig) (startIndex : Int) : Int :=
  let endIndex0 := min (startIndex + cfg.chunkSize) (text.length : Int)
  if endIndex0 < (text.length : Int) then
    let bb := chunkBestBreak text cfg.separators startIndex endIndex0
    if bb > startIndex then bb else endIndex0
  else endIndex0

/-- One chunk as pushed by both loops when the trimmed window is non-empty. -/
def mkLoopChunk (doc : Doc) (meta : Doc → Int → Int → ChunkMeta)
    (startIndex endIndex : Int) (chunkIndex : Nat) (content : List Char) : Chunk :=
  { documentId := doc.id
  , content := content
  , metadata := meta doc startIndex (endIndex - 1)
  , index := chunkIndex }

/-- The while-loop of `chunkDocument` in fileProcessing.ts. After emitting a
window the code sets `startIndex = endIndex - chunkOverlap` and only resets it
to `endIndex` when `startIndex >= endIndex` (which requires
`chunkOverlap <= 0`). Fuel-indexed; `none` means the fuel ran out. -/
def fpChunkLoop (doc : Doc) (cfg : ChunkConfig) :
    Nat → Int → Nat → List Chunk → Option (List Chunk)
  | 0, _, _, _ => none
  | fuel + 1, startIndex, chunkIndex, acc =>
    let text := doc.content
    if startIndex < (text.length : Int) then
      let endIndex := chunkEndIndex text cfg startIndex
      let chunkContent := jsTrim (jsSubstring text startIndex endIndex)
      let acc' :=
        if chunkContent.length > 0 then
          mkLoopChunk doc fpCreateChunkMetadata startIndex endIndex chunkIndex
            chunkContent :: acc
        else acc
      let chunkIndex' :=
        if chunkContent.length > 0 then chunkIndex + 1 else chunkIndex
      let s1 := endIndex - cfg.chunkOverlap
      let s2 := if s1 ≥ endIndex then endIndex else s1
      fpChunkLoop doc cfg fuel s2 chunkIndex' acc'
    else some acc.reverse

/-- Model of `chunkDocument` from fileProcessing.ts. A document whose content is at most
`chunkSize` characters is returned as a single chunk covering
`[0, length - 1]`; otherwise the sliding-window loop runs. -/
def fpChunkDocument (fuel : Nat) (doc : Doc) (cfg : ChunkConfig) :
    Option (List Chunk) :=
  let text := doc.content
  if (text.length : Int) ≤ cfg.chunkSize then
    some [{ documentId := doc.id
          , content := text
          , metadata := fpCreateChunkMetadata doc 0 ((text.length : Int) - 1)
          , index := 0 }]
  else fpChunkLoop doc cfg fuel 0 0 []

/-! ## The server-only chunker (validation/fileProcessing server variant) -/

/-- Model of `createChunkMetadata` from the server-only variant: the page number is the
estimate `Math.floor(startChar / 2000) + 1`. -/
def p2CreateChunkMetadata (doc : Doc) (startChar endChar : Int) : ChunkMeta :=
  { startChar := startChar
  , endChar := endChar
  , pageNumber := some (Int.floor ((startChar : ℚ) / 2000) + 1)
  , source := doc.source
  , documentTitle := doc.filename }

/-- The while-loop of the server-only `chunkDocument`: the next start is
`Math.max(startIndex + 1, endIndex - chunkOverlap)` and the loop breaks as soon
as it reaches the end of the text. -/
def p2ChunkLoop (doc : Doc) (cfg : ChunkConfig) :
    Nat → Int → Nat → List Chunk → Option (List Chunk)
  | 0, _, _, _ => none
  | fuel + 1, startIndex, chunkIndex, acc =>
    let text := doc.content
    if startIndex < (text.length : Int) then
      let endIndex := chunkEndIndex text cfg startIndex
      let chunkContent := jsTrim (jsSubstring text startIndex endIndex)
      let acc' :=
        if chunkContent.length > 0 then
          mkLoopChunk doc p2CreateChunkMetadata startIndex endIndex chunkIndex
            chunkContent :: acc
        else acc
      let chunkIndex' :=
        if chunkContent.length > 0 then chunkIndex + 1 else chunkIndex
      let s' := max (startIndex + 1) (endIndex - cfg.chunkOverlap)
      if s' ≥ (text.length : Int) then some acc'.reverse
      else p2ChunkLoop doc cfg fuel s' chunkIndex' acc'
    else some acc.reverse

/-- The server-only `chunkDocument`: identical single-chunk branch, loop with
the forward-progress rule `max(startIndex + 1, endIndex - chunkOverlap)`. -/
def p2ChunkDocument (fuel : Nat) (doc : Doc) (cfg : ChunkConfig) :
    Option (List Chunk) :=
  let text := doc.content
  if (text.length : Int) ≤ cfg.chunkSize then
    some [{ documentId := doc.id
          , content := text
          , metadata := p2CreateChunkMetadata doc 0 ((text.length : Int) - 1)
          , index := 0 }]
  else p2ChunkLoop doc cfg fuel 0 0 []

/-! ## The embedding batcher (src/lib/openai/embeddings.ts)

The external embedding capability is a parameter `embed`; applying it to each
text of a batch encodes the contract that the provider returns exactly one
vector per submitted text, in order. The `for (i += batchSize)` loop is
fuel-indexed by the number of batches; `embedTexts` passes enough fuel for
every positive batch size (with batch size `0` the source loop would not
terminate, which no caller does). -/

/-- The per-batch loop of `embedTexts`: take `batchSize` texts, submit them to
the external capability, append the returned vectors, continue. -/
def embedBatches {V : Type} (embed : List Char → V) (batchSize : Nat) :
    Nat → List (List Char) → List V
  | 0, _ => []
  | _, [] => []
  | fuel + 1, texts => (texts.take batchSize).map embed
      ++ embedBatches embed batchSize fuel (texts.drop batchSize)

/-- Model of `EmbeddingsClient.embedTexts`: empty input returns `[]`; texts that are
empty after trimming are filtered out before the batch loop; an error is
raised when every input is filtered out. -/
def embedTexts {V : Type} (embed : List Char → V) (batchSize : Nat)
    (texts : List (List Char)) : Except String (List V) :=
  if texts.length = 0 then .ok []
  else
    let validTexts := texts.filter fun t => (jsTrim t).length > 0
    if validTexts.length = 0 then .error "No valid texts to embed"
    else .ok (embedBatches embed batchSize validTexts.length validTexts)

/-- The indexed map `chunks.map((chunk, index) => ..embedding: embeddings[index])`
of `embedDocumentChunks`: out-of-range lookups yield `undefined`, modelled as
`none`. -/
def attachEmbeddings {V : Type} (embeddings : List V) :
    Nat → List Chunk → List (Chunk × Option V)
  | _, [] => []
  | i, c :: rest => (c, embeddings.get? i) :: attachEmbeddings embeddings (i + 1) rest

/-- Model of `EmbeddingsClient.embedDocumentChunks`: embed the chunks' contents with
`embedTexts` and attach `embeddings[index]` to the chunk at position `index`. -/
def embedDocumentChunks {V : Type} (embed : List Char → V) (batchSize : Nat)
    (chunks : List Chunk) : Except String (List (Chunk × Option V)) :=
  if chunks.length = 0 then .ok []
  else
    match embedTexts embed batchSize (chunks.map fun c => c.content) with
    | .error e => .error e
    | .ok embeddings => .ok (attachEmbeddings embeddings 0 chunks)

/-! ## Cosine similarity (`EmbeddingsClient.calculateSimilarity`)

Vector components are modelled as real numbers (the mathematical reading of
the IEEE doubles of the source); `Math.sqrt` is `Real.sqrt`. -/

/-- The accumulated dot product of the `for` loop over the common indices. -/
def dotList (a b : List ℝ) : ℝ := (List.zipWith (fun x y => x * y) a b).sum

/-- Model of `calculateSimilarity`: an error on dimension mismatch, otherwise the dot
product divided by the product of the magnitudes, and `0` when that product is
not positive. -/
noncomputable def calculateSimilarity (a b : List ℝ) : Except String ℝ :=
  if a.length ≠ b.length then .error "Embeddings must have the same dimensions"
  else
    let magnitude := Real.sqrt (dotList a a) * Real.sqrt (dotList b b)
    .ok (if magnitude > 0 then dotList a b / magnitude else 0)

/-! ## Tool registry (src/lib/langchain/tools.ts) -/

structure RagTool where
  name : String
deriving Repr, DecidableEq

/-- The `ragTools` array of the five registered tools. -/
def ragTools : List RagTool :=
  [ { name := "retrieve_documents" }
  , { name := "search_by_source" }
  , { name := "get_knowledge_base_info" }
  , { name := "contextualize_question" }
  , { name := "generate_image" } ]

/-- Model of `getToolByName`: `ragTools.find(tool => tool.name === name)`, which is
`undefined` (here `none`) when no registered tool has the requested name. -/
def getToolByName (name : String) : Option RagTool :=
  ragTools.find? fun tool => tool.name == name

/-- Model of `getToolNames`. -/
def getToolNames : List String := ragTools.map fun tool => tool.name

/-! ## Agent orchestrator (chat server action)

Messages carry the `additional_kwargs.tool_calls` field read by the
conditional edge; both the kwargs object and the array are optional, and an
array that is present but empty is still truthy in the source's check. -/

structure ToolCallReq where
  id : String
  name : String
deriving Repr, DecidableEq

structure MsgKwargs where
  tool_calls : Option (List ToolCallReq)
deriving Repr, DecidableEq

structure AgentMsg where
  content : String
  additional_kwargs : Option MsgKwargs
deriving Repr, DecidableEq

/-- Model of `shouldContinue`: route to the `tools` node exactly when the last message
exists, has `additional_kwargs`, and its `tool_calls` field is present (any
array, including an empty one, is truthy); otherwise end the graph. -/
def shouldContinue (messages : List AgentMsg) : String :=
  match messages.getLast? with
  | none => "__end__"
  | some lastMessage =>
    match lastMessage.additional_kwargs with
    | none => "__end__"
    | some kwargs =>
      match kwargs.tool_calls with
      | some _ => "tools"
      | none => "__end__"

/-- The compiled graph of `createChatAgent`: starting at the `agent` node,
append the model response, follow the conditional edge; the `tools` node
appends its result messages and loops back to `agent`. Returns the final
message list and the number of `agent` (THINK) steps taken. -/
def runAgentGraph (callModel : List AgentMsg → AgentMsg)
    (runTools : List AgentMsg → List AgentMsg) :
    Nat → List AgentMsg → Nat → Option (List AgentMsg × Nat)
  | 0, _, _ => none
  | fuel + 1, messages, thinks =>
    let messages' := messages ++ [callModel messages]
    if shouldContinue messages' = "tools" then
      runAgentGraph callModel runTools fuel (messages' ++ runTools messages')
        (thinks + 1)
    else some (messages', thinks + 1)

/-! ## Text normalizer (`cleanText`, both copies)

Each regex replacement of the source is modelled by a recursive function with
the exact global, leftmost, greedy semantics of `String.prototype.replace`. -/

/-- Model of `replace(/\r\n/g, '\n')`: global, leftmost, non-overlapping. -/
def replaceCRLF : List Char → List Char
  | [] => []
  | [c] => [c]
  | c1 :: c2 :: rest =>
    if c1 = '\r' ∧ c2 = '\n' then '\n' :: replaceCRLF rest
    else c1 :: replaceCRLF (c2 :: rest)

/-- Model of `replace(/\r/g, '\n')`. -/
def replaceCR (l : List Char) : List Char :=
  l.map fun c => if c = '\r' then '\n' else c

/-- Model of `replace(/\n{3,}/g, '\n\n')` with `k` pending newlines already scanned:
a run of `k` newlines is emitted as `min k 2` newlines. -/
def collapseNLAux : Nat → List Char → List Char
  | k, [] => List.replicate (min k 2) '\n'
  | k, c :: rest =>
    if c = '\n' then collapseNLAux (k + 1) rest
    else List.replicate (min k 2) '\n' ++ c :: collapseNLAux 0 rest

def collapseNL (l : List Char) : List Char := collapseNLAux 0 l

/-- Model of `replace(/\t/g, ' ')` (fileProcessing copy). -/
def tabToSpace (l : List Char) : List Char :=
  l.map fun c => if c = '\t' then ' ' else c

/-- Model of `replace(/[ ]{2,}/g, ' ')` (fileProcessing copy) with `k` pending spaces:
a run of `k` spaces is emitted as `min k 1` spaces. -/
def collapseSpacesAux : Nat → List Char → List Char
  | k, [] => List.replicate (min k 1) ' '
  | k, c :: rest =>
    if c = ' ' then collapseSpacesAux (k + 1) rest
    else List.replicate (min k 1) ' ' ++ c :: collapseSpacesAux 0 rest

def collapseSpaces (l : List Char) : List Char := collapseSpacesAux 0 l

/-- Model of `replace(/[ \t]+/g, ' ')` (server-only copy): every run of spaces and tabs
becomes a single space. -/
def collapseSpaceTabAux : Nat → List Char → List Char
  | k, [] => List.replicate (min k 1) ' '
  | k, c :: rest =>
    if c = ' ' ∨ c = '\t' then collapseSpaceTabAux (k + 1) rest
    else List.replicate (min k 1) ' ' ++ c :: collapseSpaceTabAux 0 rest

def collapseSpaceTab (l : List Char) : List Char := collapseSpaceTabAux 0 l

/-- Model of `cleanText` from fileProcessing.ts. -/
def fpCleanText (l : List Char) : List Char :=
  jsTrim (collapseSpaces (tabToSpace (collapseNL (replaceCR (replaceCRLF l)))))

/-- The largest position `j` of a `'\n'` inside `run` (`none` when `run` has no
newline): used to resolve the backtracking of the `\s+$` alternative. -/
def lastNLPos (run : List Char) : Option Nat :=
  (List.range run.length).reverse.find? fun j => run.get? j == some '\n'

/-- The contribution of one maximal interior whitespace run to the result of
`replace(/^\s+|\s+$/gm, '')`: a run containing no newline is kept verbatim; a
run whose last newline is immediately preceded by another newline is removed
entirely (the trailing-trim match ends just before that last newline, whose
line-start position then lets the leading-trim alternative consume the rest);
otherwise the run collapses to the single newline the engine cannot match. -/
def gmRunEmit (run : List Char) : List Char :=
  match lastNLPos run with
  | none => run
  | some j => if 1 ≤ j ∧ run.get? (j - 1) = some '\n' then [] else ['\n']

/-- Model of `replace(/^\s+|\s+$/gm, '')` (server-only copy), processed run by run: the
flag records whether the current position starts a line. A run at a line start
is consumed by `^\s+`; a run reaching the end of the string is consumed by
`^\s+` or `\s+$`; an interior run contributes `gmRunEmit`. Fuel-indexed for
structural recursion: every step consumes at least one character, so fuel equal
to the length of the list always suffices and the exhaustion branch is never
reached from `gmTrim`. -/
def gmTrimAux : Nat → Bool → List Char → List Char
  | 0, _, _ => []
  | _ + 1, _, [] => []
  | fuel + 1, atLineStart, c :: rest =>
    if isWS c then
      let run := c :: rest.takeWhile isWS
      let rest' := rest.dropWhile isWS
      if rest'.length = 0 then []
      else if atLineStart then gmTrimAux fuel false rest'
      else gmRunEmit run ++ gmTrimAux fuel false rest'
    else c :: gmTrimAux fuel false rest

def gmTrim (l : List Char) : List Char := gmTrimAux l.length true l

/-- Model of `cleanText` from the server-only copy. -/
def p2CleanText (l : List Char) : List Char :=
  jsTrim (gmTrim (collapseSpaceTab (collapseNL (replaceCR (replaceCRLF l)))))

/-! ## Derived notions used by the claims -/

/-- The concatenation, in chunk order, of the raw substrings of the original
content designated by each chunk's inclusive character range. -/
def chunkRangesConcat (doc : Doc) (l : List Chunk) : List Char :=
  (l.map fun c =>
    jsSubstring doc.content c.metadata.startChar (c.metadata.endChar + 1)).flatten

/-- Equality of `Except` results is decidable when both components are. -/
instance instDecEqExcept {ε α : Type} [DecidableEq ε] [DecidableEq α] :
    DecidableEq (Except ε α) := fun x y =>
  match x, y with
  | .error a, .error b =>
    if h : a = b then .isTrue (congrArg Except.error h)
    else .isFalse fun hh => h (Except.error.inj hh)
  | .ok a, .ok b =>
    if h : a = b then .isTrue (congrArg Except.ok h)
    else .isFalse fun hh => h (Except.ok.inj hh)
  | .error _, .ok _ => .isFalse fun hh => Except.noConfusion hh
  | .ok _, .error _ => .isFalse fun hh => Except.noConfusion hh

/-- The chunk fields compared by the refinement claim: content, index and
character range (ids are random and the page-number heuristics differ). -/
def chunkCore (c : Chunk) : List Char × Nat × Int × Int :=
  (c.content, c.index, c.metadata.startChar, c.metadata.endChar)

/-- Predicate: `pat` occurs contiguously inside `l`. -/
def ContainsSeq (pat l : List Char) : Prop := ∃ x y, l = x ++ (pat ++ y)

/-- Predicate: `l` starts with `pat`. -/
def LeadsWith (pat l : List Char) : Prop := ∃ y, l = pat ++ y

/-! ## Concrete inputs used to settle the claims -/

/-- Four characters with `chunkSize = 3`, `chunkOverlap = 1`: a valid
configuration (`chunkOverlap < chunkSize`) on which the fileProcessing loop
repeats the state `startIndex = 3` forever. -/
def c1Doc : Doc :=
  { id := "doc-c1", filename := "aaaa.txt", content := ['a', 'a', 'a', 'a']
  , pageCount := none, source := "aaaa.txt" }

def c1Cfg : ChunkConfig := { chunkSize := 3, chunkOverlap := 1, separators := [] }

/-- A message whose `additional_kwargs.tool_calls` is present but empty. -/
def c2EmptyCallsMsg : AgentMsg :=
  { content := "resp", additional_kwargs := some { tool_calls := some [] } }

/-- Document whose trailing window is whitespace only: the loop drops it, so
the ranges of the emitted chunks do not cover the content. -/
def c5Doc : Doc :=
  { id := "doc-c5", filename := "pad.txt", content := ['a', 'a', 'a', ' ']
  , pageCount := none, source := "pad.txt" }

def c5Cfg : ChunkConfig := { chunkSize := 3, chunkOverlap := 0, separators := [] }

/-- The empty document. -/
def c6Doc : Doc :=
  { id := "doc-c6", filename := "empty.txt", content := []
  , pageCount := none, source := "empty.txt" }

/-- A one-character document: its single chunk has `startChar = endChar = 0`. -/
def c7Doc : Doc :=
  { id := "doc-c7", filename := "one.txt", content := ['a']
  , pageCount := none, source := "one.txt" }

/-- A one-character document used to compare the two chunker variants. -/
def c10Doc : Doc :=
  { id := "doc-c10", filename := "a.txt", content := ['a']
  , pageCount := none, source := "a.txt" }

/-! ## General lemmas about the primitives -/

theorem jsTrim_nil : jsTrim [] = [] := rfl

theorem jsTrim_ne_nil {l : List Char} (h : jsTrim l ≠ []) : l ≠ [] := by
  intro hl; exact h (hl ▸ jsTrim_nil)

theorem clampIdx_le (len : Nat) (i : Int) : clampIdx len i ≤ len := by
  unfold clampIdx
  omega

theorem clampIdx_mono (len : Nat) {a b : Int} (h : a ≤ b) :
    clampIdx len a ≤ clampIdx len b := by
  unfold clampIdx
  omega

theorem jsSubstring_eq_nil_of_clamp_eq {l : List Char} {a b : Int}
    (h : clampIdx l.length a = clampIdx l.length b) : jsSubstring l a b = [] := by
  unfold jsSubstring
  rw [h, Nat.max_self, Nat.min_self]
  apply List.eq_nil_of_length_eq_zero
  rw [List.length_drop, List.length_take]
  omega

theorem lt_of_jsSubstring_ne_nil {l : List Char} {a b : Int} (hab : a ≤ b)
    (h : jsSubstring l a b ≠ []) : a < b := by
  rcases lt_or_eq_of_le hab with h1 | h1
  · exact h1
  · exact absurd (jsSubstring_eq_nil_of_clamp_eq (by rw [h1])) h

theorem jsSubstring_zero_len (l : List Char) :
    jsSubstring l 0 (l.length : Int) = l := by
  have h0 : clampIdx l.length 0 = 0 := by unfold clampIdx; omega
  have h1 : clampIdx l.length (l.length : Int) = l.length := by unfold clampIdx; omega
  unfold jsSubstring
  rw [h0, h1]
  simp

/-! ## Lemmas about the window end of the chunkers -/

theorem chunkEndIndex_of_ge (text : List Char) (cfg : ChunkConfig) (s : Int)
    (h : (text.length : Int) ≤ s + cfg.chunkSize) :
    chunkEndIndex text cfg s = (text.length : Int) := by
  unfold chunkEndIndex
  rw [min_eq_right h, if_neg (lt_irrefl _)]

theorem chunkEndIndex_ge (text : List Char) (cfg : ChunkConfig) (s : Int)
    (hs : s < (text.length : Int)) (hcs : 0 ≤ cfg.chunkSize) :
    s ≤ chunkEndIndex text cfg s := by
  unfold chunkEndIndex
  by_cases h1 : min (s + cfg.chunkSize) (text.length : Int) < (text.length : Int)
  · rw [if_pos h1]
    by_cases h2 : chunkBestBreak text cfg.separators s
        (min (s + cfg.chunkSize) (text.length : Int)) > s
    · rw [if_pos h2]; exact le_of_lt h2
    · rw [if_neg h2]; omega
  · rw [if_neg h1]; omega

theorem chunkEndIndex_ge_succ (text : List Char) (cfg : ChunkConfig) (s : Int)
    (hs : s < (text.length : Int)) (hcs : 1 ≤ cfg.chunkSize) :
    s + 1 ≤ chunkEndIndex text cfg s := by
  unfold chunkEndIndex
  by_cases h1 : min (s + cfg.chunkSize) (text.length : Int) < (text.length : Int)
  · rw [if_pos h1]
    by_cases h2 : chunkBestBreak text cfg.separators s
        (min (s + cfg.chunkSize) (text.length : Int)) > s
    · rw [if_pos h2]; omega
    · rw [if_neg h2]; omega
  · rw [if_neg h1]; omega

/-! ## Claim C4 -/

/-- Claim C4 counterexample: a tool-call request with an unregistered name is
not routed to the broad document-retrieval tool; `getToolByName` resolves it to
no tool at all. -/
theorem c4_counterexample :
    getToolByName "nonexistent_tool" = none
    ∧ getToolByName "nonexistent_tool" ≠ some { name := "retrieve_documents" } := by
  constructor
  · decide
  · decide

/-- Claim C4 amended: an unknown tool name resolves to no tool (`undefined`,
not a fallback), and any tool that `getToolByName` does return bears exactly
the requested name. -/
theorem c4_amended (name : String) :
    (name ∉ getToolNames → getToolByName name = none)
    ∧ (∀ t, getToolByName name = some t → t.name = name) := by
  constructor
  · intro h
    rw [getToolByName, List.find?_eq_none]
    intro t ht hbeq
    exact h (by
      rw [getToolNames]
      exact List.mem_map.mpr ⟨t, ht, by simpa using hbeq⟩)
  · intro t ht
    have := List.find?_some ht
    simpa using this

theorem c4_witness :
    ("nonexistent_tool" ∉ getToolNames)
    ∧ getToolByName "nonexistent_tool" = none :=
  ⟨by decide, (c4_amended "nonexistent_tool").1 (by decide)⟩

/-! ## Claim C2 -/

/-- Claim C2 counterexample: a last message whose `tool_calls` collection is
present but empty routes to the tool node, not to the terminal edge, because
an empty array is truthy in the source's check. -/
theorem c2_counterexample :
    shouldContinue [c2EmptyCallsMsg] = "tools"
    ∧ shouldContinue [c2EmptyCallsMsg] ≠ "__end__" := by
  constructor
  · rfl
  · decide

/-- Claim C2 amended: `shouldContinue` routes to the tool node exactly when the
last message exists and carries a present `tool_calls` collection (empty or
not); it terminates the graph otherwise, and a model response whose
`tool_calls` field is absent reaches the terminal edge in exactly one think
step of the graph. -/
theorem c2_amended (messages : List AgentMsg)
    (callModel : List AgentMsg → AgentMsg)
    (runTools : List AgentMsg → List AgentMsg) (fuel : Nat) :
    (shouldContinue messages = "tools" ↔
      ∃ m kw tc, messages.getLast? = some m ∧ m.additional_kwargs = some kw
        ∧ kw.tool_calls = some tc)
    ∧ (shouldContinue messages = "tools" ∨ shouldContinue messages = "__end__")
    ∧ (((callModel messages).additional_kwargs.bind fun kw => kw.tool_calls) = none →
        runAgentGraph callModel runTools (fuel + 1) messages 0 =
          some (messages ++ [callModel messages], 1)) := by
  refine ⟨?_, ?_, ?_⟩
  · constructor
    · intro h
      rcases hlast : messages.getLast? with _ | m
      · simp only [shouldContinue, hlast] at h
        exact absurd h (by decide)
      · rcases hkw : m.additional_kwargs with _ | kw
        · simp only [shouldContinue, hlast, hkw] at h
          exact absurd h (by decide)
        · rcases htc : kw.tool_calls with _ | tc
          · simp only [shouldContinue, hlast, hkw, htc] at h
            exact absurd h (by decide)
          · exact ⟨m, kw, tc, rfl, hkw, htc⟩
    · rintro ⟨m, kw, tc, hlast, hkw, htc⟩
      simp only [shouldContinue, hlast, hkw, htc]
  · rcases hlast : messages.getLast? with _ | m
    · right; simp only [shouldContinue, hlast]
    · rcases hkw : m.additional_kwargs with _ | kw
      · right; simp only [shouldContinue, hlast, hkw]
      · rcases htc : kw.tool_calls with _ | tc
        · right; simp only [shouldContinue, hlast, hkw, htc]
        · left; simp only [shouldContinue, hlast, hkw, htc]
  · intro h
    rw [runAgentGraph]
    have hend : shouldContinue (messages ++ [callModel messages]) = "__end__" := by
      rcases hkw : (callModel messages).additional_kwargs with _ | kw
      · simp only [shouldContinue, List.getLast?_concat, hkw]
      · rw [hkw] at h
        simp only [Option.some_bind] at h
        simp only [shouldContinue, List.getLast?_concat, hkw, h]
    rw [hend]
    rw [if_neg (by decide)]

theorem c2_witness :
    (((fun _ : List AgentMsg =>
        ({ content := "answer", additional_kwargs := none } : AgentMsg)) []).additional_kwargs.bind
          (fun kw => kw.tool_calls) = none)
    ∧ runAgentGraph
        (fun _ => { content := "answer", additional_kwargs := none })
        (fun _ => []) 1 [] 0 =
        some ([{ content := "answer", additional_kwargs := none }], 1) :=
  ⟨rfl,
    (c2_amended [] (fun _ => { content := "answer", additional_kwargs := none })
      (fun _ => []) 0).2.2 rfl⟩

/-! ## Claim C6 -/

/-- Claim C6 counterexample: the empty document does not yield zero chunks;
both chunkers return exactly one chunk (with empty content). -/
theorem c6_counterexample :
    (fpChunkDocument 0 c6Doc defaultChunkConfig).map List.length = some 1
    ∧ (p2ChunkDocument 0 c6Doc defaultChunkConfig).map List.length = some 1
    ∧ fpChunkDocument 0 c6Doc defaultChunkConfig ≠ some [] := by
  refine ⟨by decide, by decide, by decide⟩

/-- Claim C6 amended: for every configuration with a non-negative chunk size,
a document with empty content yields exactly one chunk, whose content is the
empty string, with index 0 and character range `[0, -1]` (not zero chunks and
not an error), in both chunker implementations. -/
theorem c6_amended (doc : Doc) (cfg : ChunkConfig) (fuel : Nat)
    (hdoc : doc.content = []) (hcs : 0 ≤ cfg.chunkSize) :
    (∃ c, fpChunkDocument fuel doc cfg = some [c] ∧ c.content = [] ∧ c.index = 0
        ∧ c.metadata.startChar = 0 ∧ c.metadata.endChar = -1)
    ∧ (∃ c, p2ChunkDocument fuel doc cfg = some [c] ∧ c.content = [] ∧ c.index = 0
        ∧ c.metadata.startChar = 0 ∧ c.metadata.endChar = -1) := by
  obtain ⟨i, f, content, pc, src⟩ := doc
  simp only at hdoc
  subst hdoc
  have hlen : ((List.length ([] : List Char) : Int)) ≤ cfg.chunkSize := by
    simpa using hcs
  constructor
  · have hfp : fpChunkDocument fuel
        { id := i, filename := f, content := [], pageCount := pc, source := src } cfg
        = some [{ documentId := i, content := []
                , metadata := fpCreateChunkMetadata
                    { id := i, filename := f, content := [], pageCount := pc
                    , source := src } 0 (-1)
                , index := 0 }] := by
      rw [fpChunkDocument, if_pos hlen]
      norm_num
    exact ⟨_, hfp, rfl, rfl, rfl, rfl⟩
  · have hp2 : p2ChunkDocument fuel
        { id := i, filename := f, content := [], pageCount := pc, source := src } cfg
        = some [{ documentId := i, content := []
                , metadata := p2CreateChunkMetadata
                    { id := i, filename := f, content := [], pageCount := pc
                    , source := src } 0 (-1)
                , index := 0 }] := by
      rw [p2ChunkDocument, if_pos hlen]
      norm_num
    exact ⟨_, hp2, rfl, rfl, rfl, rfl⟩

/-! ## Claim C7 -/

/-- Claim C7 counterexample: a one-character document yields a chunk with
`startChar = endChar = 0`, so the invariant `startChar < endChar` fails. -/
theorem c7_counterexample :
    ∃ l c, fpChunkDocument 0 c7Doc defaultChunkConfig = some l ∧ c ∈ l
      ∧ ¬ (c.metadata.startChar < c.metadata.endChar) := by
  refine ⟨[{ documentId := "doc-c7", content := ['a']
           , metadata := { startChar := 0, endChar := 0, pageNumber := none
                         , source := "one.txt", documentTitle := "one.txt" }
           , index := 0 }],
          { documentId := "doc-c7", content := ['a']
          , metadata := { startChar := 0, endChar := 0, pageNumber := none
                        , source := "one.txt", documentTitle := "one.txt" }
          , index := 0 }, ?_, ?_, ?_⟩
  · decide
  · decide
  · decide

/-- Every chunk the fileProcessing loop accumulates satisfies
`startChar ≤ endChar`, for a non-negative chunk size. -/
theorem fp_loop_range_inv (doc : Doc) (cfg : ChunkConfig) (hcs : 0 ≤ cfg.chunkSize) :
    ∀ fuel s idx acc l,
      (∀ c ∈ acc, c.metadata.startChar ≤ c.metadata.endChar) →
      fpChunkLoop doc cfg fuel s idx acc = some l →
      ∀ c ∈ l, c.metadata.startChar ≤ c.metadata.endChar := by
  intro fuel
  induction fuel with
  | zero => intro s idx acc l hacc h; simp [fpChunkLoop] at h
  | succ n ih =>
    intro s idx acc l hacc h
    simp only [fpChunkLoop] at h
    by_cases hlt : s < (doc.content.length : Int)
    · rw [if_pos hlt] at h
      by_cases hpush :
          (jsTrim (jsSubstring doc.content s (chunkEndIndex doc.content cfg s))).length > 0
      · rw [if_pos hpush, if_pos hpush] at h
        refine ih _ _ _ _ ?_ h
        intro c hc
        rcases List.mem_cons.mp hc with hc | hc
        · subst hc
          show s ≤ chunkEndIndex doc.content cfg s - 1
          have hne : jsTrim (jsSubstring doc.content s (chunkEndIndex doc.content cfg s)) ≠ [] := by
            intro hnil; rw [hnil] at hpush; exact absurd hpush (by simp)
          have hsub : jsSubstring doc.content s (chunkEndIndex doc.content cfg s) ≠ [] :=
            jsTrim_ne_nil hne
          have hge := chunkEndIndex_ge doc.content cfg s hlt hcs
          have := lt_of_jsSubstring_ne_nil hge hsub
          omega
        · exact hacc c hc
      · rw [if_neg hpush, if_neg hpush] at h
        exact ih _ _ _ _ hacc h
    · rw [if_neg hlt] at h
      obtain rfl := Option.some.inj h
      intro c hc
      exact hacc c (List.mem_reverse.mp hc)

/-- Claim C7 amended: for every document with non-empty content and every
configuration with a non-negative chunk size, every chunk returned by the
fileProcessing chunker satisfies `startChar ≤ endChar` (equality is attained,
so the strict inequality of the claim does not hold). -/
theorem c7_amended (doc : Doc) (cfg : ChunkConfig) (fuel : Nat) (l : List Chunk)
    (hne : doc.content ≠ []) (hcs : 0 ≤ cfg.chunkSize)
    (h : fpChunkDocument fuel doc cfg = some l) :
    ∀ c ∈ l, c.metadata.startChar ≤ c.metadata.endChar := by
  simp only [fpChunkDocument] at h
  by_cases hlen : (doc.content.length : Int) ≤ cfg.chunkSize
  · rw [if_pos hlen] at h
    obtain rfl := Option.some.inj h
    intro c hc
    rw [List.mem_singleton] at hc
    subst hc
    show (0 : Int) ≤ (doc.content.length : Int) - 1
    have h0 : doc.content.length ≠ 0 := fun h0 => hne (List.eq_nil_of_length_eq_zero h0)
    omega
  · rw [if_neg hlen] at h
    exact fp_loop_range_inv doc cfg hcs fuel 0 0 [] l (by simp) h

theorem c7_witness :
    ({ documentId := "w7", content := ['b']
     , metadata := { startChar := 0, endChar := 0, pageNumber := none
                   , source := "w7.txt", documentTitle := "w7.txt" }
     , index := 0 } : Chunk).metadata.startChar ≤
    ({ documentId := "w7", content := ['b']
     , metadata := { startChar := 0, endChar := 0, pageNumber := none
                   , source := "w7.txt", documentTitle := "w7.txt" }
     , index := 0 } : Chunk).metadata.endChar :=
  c7_amended
    { id := "w7", filename := "w7.txt", content := ['b'], pageCount := none
    , source := "w7.txt" }
    { chunkSize := 5, chunkOverlap := 1, separators := [] } 0
    [{ documentId := "w7", content := ['b']
     , metadata := { startChar := 0, endChar := 0, pageNumber := none
                   , source := "w7.txt", documentTitle := "w7.txt" }
     , index := 0 }]
    (by decide) (by decide) (by decide)
    { documentId := "w7", content := ['b']
    , metadata := { startChar := 0, endChar := 0, pageNumber := none
                  , source := "w7.txt", documentTitle := "w7.txt" }
    , index := 0 }
    (by decide)

/-! ## Bounds on the separator scan -/

theorem lastOccurFrom_cases (l sep : List Char) :
    ∀ k : Nat, lastOccurFrom l sep k = -1 ∨
      ∃ i : Nat, lastOccurFrom l sep k = (i : Int) ∧ i ≤ k ∧ occursAt l sep i = true := by
  intro k
  induction k with
  | zero =>
    by_cases h : occursAt l sep 0 = true
    · right; exact ⟨0, by simp [lastOccurFrom, h], le_refl _, h⟩
    · left; simp [lastOccurFrom, h]
  | succ n ih =>
    by_cases h : occursAt l sep (n + 1) = true
    · right
      refine ⟨n + 1, ?_, le_refl _, h⟩
      simp [lastOccurFrom, h]
    · have hrw : lastOccurFrom l sep (n + 1) = lastOccurFrom l sep n := by
        simp [lastOccurFrom, h]
      rcases ih with h1 | ⟨i, h1, h2, h3⟩
      · left; rw [hrw, h1]
      · right; exact ⟨i, by rw [hrw, h1], Nat.le_succ_of_le h2, h3⟩

theorem jsLastIndexOf_cases (l sep : List Char) (fromIdx : Int) :
    jsLastIndexOf l sep fromIdx = -1 ∨
      ∃ i : Nat, jsLastIndexOf l sep fromIdx = (i : Int) ∧ i ≤ l.length
        ∧ occursAt l sep i = true := by
  rcases lastOccurFrom_cases l sep (clampIdx l.length fromIdx) with h | ⟨i, h1, h2, h3⟩
  · left; exact h
  · right; exact ⟨i, h1, le_trans h2 (clampIdx_le _ _), h3⟩

theorem occursAt_bound {l sep : List Char} {i : Nat} (hi : i ≤ l.length)
    (h : occursAt l sep i = true) : i + sep.length ≤ l.length := by
  have heq : (l.drop i).take sep.length = sep := by
    simpa [occursAt] using h
  have hlen := congrArg List.length heq
  rw [List.length_take, List.length_drop] at hlen
  omega

theorem bestBreakStep_inv (text : List Char) {s e b : Int} (hs : 0 ≤ s)
    (hb : b ≤ s ∨ b ≤ (text.length : Int)) (sep : List Char) :
    bestBreakStep text s e b sep ≤ s ∨ bestBreakStep text s e b sep ≤ (text.length : Int) := by
  rw [bestBreakStep]
  by_cases hc : jsLastIndexOf text sep e > s ∧ jsLastIndexOf text sep e > b
  · rw [if_pos hc]
    rcases jsLastIndexOf_cases text sep e with h | ⟨i, hi, hile, hocc⟩
    · rw [h] at hc; omega
    · right
      rw [hi]
      have hib := occursAt_bound hile hocc
      omega
  · rw [if_neg hc]; exact hb

theorem chunkBestBreak_le (text : List Char) (seps : List (List Char)) (s e : Int)
    (hs : 0 ≤ s) :
    chunkBestBreak text seps s e ≤ s ∨ chunkBestBreak text seps s e ≤ (text.length : Int) := by
  rw [chunkBestBreak]
  have hgen : ∀ (seps : List (List Char)) (b : Int),
      (b ≤ s ∨ b ≤ (text.length : Int)) →
      (seps.foldl (bestBreakStep text s e) b ≤ s
        ∨ seps.foldl (bestBreakStep text s e) b ≤ (text.length : Int)) := by
    intro seps
    induction seps with
    | nil => intro b hb; exact hb
    | cons sep rest ih =>
      intro b hb
      exact ih _ (bestBreakStep_inv text hs hb sep)
  exact hgen seps (-1) (Or.inl (by omega))

theorem chunkEndIndex_le (text : List Char) (cfg : ChunkConfig) (s : Int)
    (hs : 0 ≤ s) :
    chunkEndIndex text cfg s ≤ (text.length : Int) := by
  unfold chunkEndIndex
  by_cases h1 : min (s + cfg.chunkSize) (text.length : Int) < (text.length : Int)
  · rw [if_pos h1]
    by_cases h2 : chunkBestBreak text cfg.separators s
        (min (s + cfg.chunkSize) (text.length : Int)) > s
    · rw [if_pos h2]
      rcases chunkBestBreak_le text cfg.separators s
          (min (s + cfg.chunkSize) (text.length : Int)) hs with h | h
      · omega
      · exact h
    · rw [if_neg h2]
      exact min_le_right _ _
  · rw [if_neg h1]
    exact min_le_right _ _

/-! ## Claim C1 -/

/-- Once the window reaches the end of the text, the fileProcessing loop sets
the next start to `length - chunkOverlap` on every iteration: with a positive
overlap no smaller than the chunk size it never advances past the end, so the
loop consumes any amount of fuel without returning. -/
theorem fp_tail_loop_none (doc : Doc) (cfg : ChunkConfig)
    (hov : 0 < cfg.chunkOverlap) (hcs : cfg.chunkOverlap ≤ cfg.chunkSize) :
    ∀ fuel s idx acc, s < (doc.content.length : Int) →
      (doc.content.length : Int) ≤ s + cfg.chunkSize →
      fpChunkLoop doc cfg fuel s idx acc = none := by
  intro fuel
  induction fuel with
  | zero => intro s idx acc h1 h2; rfl
  | succ n ih =>
    intro s idx acc h1 h2
    have hend : chunkEndIndex doc.content cfg s = (doc.content.length : Int) :=
      chunkEndIndex_of_ge doc.content cfg s h2
    simp only [fpChunkLoop, if_pos h1, hend]
    rw [if_neg (show ¬ ((doc.content.length : Int) - cfg.chunkOverlap
      ≥ (doc.content.length : Int)) by omega)]
    exact ih _ _ _ (by omega) (by omega)

/-- Claim C1: the claim holds for the server-only copy but the fileProcessing
copy of `chunkDocument` violates it — on the four-character document with the
valid configuration `chunkSize = 3 > chunkOverlap = 1` (empty separator list)
its loop reaches `startIndex = 3` and then recomputes `startIndex = 4 - 1 = 3`
forever, so the function does not terminate for any amount of fuel. -/
theorem c1_fp_divergence : ∀ fuel, fpChunkDocument fuel c1Doc c1Cfg = none := by
  intro fuel
  have h0 : fpChunkDocument fuel c1Doc c1Cfg = fpChunkLoop c1Doc c1Cfg fuel 0 0 [] := rfl
  rw [h0]
  match fuel with
  | 0 => rfl
  | n + 1 =>
    have hstep : fpChunkLoop c1Doc c1Cfg (n + 1) 0 0 []
        = fpChunkLoop c1Doc c1Cfg n 2 1
            [{ documentId := "doc-c1", content := ['a', 'a', 'a']
             , metadata := { startChar := 0, endChar := 2, pageNumber := none
                           , source := "aaaa.txt", documentTitle := "aaaa.txt" }
             , index := 0 }] := rfl
    rw [hstep]
    exact fp_tail_loop_none c1Doc c1Cfg (by decide) (by decide) n 2 1 _
      (by decide) (by decide)

/-! ## Claim C5 -/

/-- Claim C5 counterexample: on a document whose last window trims to
whitespace (configuration `chunkSize = 3`, `chunkOverlap = 0`, no separators)
the loop drops that window, so concatenating the raw substrings of the
returned chunks' character ranges loses the trailing space and does not
reconstruct the content. -/
theorem c5_counterexample :
    ∃ l, fpChunkDocument 3 c5Doc c5Cfg = some l
      ∧ chunkRangesConcat c5Doc l ≠ c5Doc.content := by
  refine ⟨[{ documentId := "doc-c5", content := ['a', 'a', 'a']
           , metadata := { startChar := 0, endChar := 2, pageNumber := none
                         , source := "pad.txt", documentTitle := "pad.txt" }
           , index := 0 }], ?_, ?_⟩
  · decide
  · decide

/-- Claim C5 amended: the reconstruction property holds exactly on the
single-chunk path — for every document whose content fits in one chunk
(`content.length ≤ chunkSize`, including the empty document) the concatenation
of the raw substrings designated by the chunks' character ranges is the
original content; with more than one window the loop both overlaps ranges and
drops whitespace-only windows, and the property fails. -/
theorem c5_amended (doc : Doc) (cfg : ChunkConfig) (fuel : Nat)
    (h : (doc.content.length : Int) ≤ cfg.chunkSize) :
    ∃ l, fpChunkDocument fuel doc cfg = some l
      ∧ chunkRangesConcat doc l = doc.content := by
  refine ⟨_, by rw [fpChunkDocument, if_pos h], ?_⟩
  show chunkRangesConcat doc [_] = doc.content
  rw [chunkRangesConcat]
  simp only [List.map_cons, List.map_nil, List.flatten]
  show jsSubstring doc.content 0 ((doc.content.length : Int) - 1 + 1) ++ [] = doc.content
  rw [List.append_nil, sub_add_cancel, jsSubstring_zero_len]

theorem c5_witness :
    ((([ 'a', 'b'] : List Char).length : Int) ≤ (1500 : Int))
    ∧ (∃ l, fpChunkDocument 0
          { id := "w5", filename := "w5.txt", content := ['a', 'b']
          , pageCount := none, source := "w5.txt" } defaultChunkConfig = some l
        ∧ chunkRangesConcat
            { id := "w5", filename := "w5.txt", content := ['a', 'b']
            , pageCount := none, source := "w5.txt" } l
          = ['a', 'b']) :=
  ⟨by decide,
    c5_amended
      { id := "w5", filename := "w5.txt", content := ['a', 'b']
      , pageCount := none, source := "w5.txt" } defaultChunkConfig 0 (by decide)⟩

/-! ## Claim C10 -/

/-- Claim C10 counterexample: already on a one-character document the two
chunkers disagree — the `pageNumber` metadata of the fileProcessing chunk is
`undefined` (no page count on the document) while the server-only chunk
estimates page `1`. -/
theorem c10_counterexample :
    fpChunkDocument 0 c10Doc defaultChunkConfig
      ≠ p2ChunkDocument 0 c10Doc defaultChunkConfig
    ∧ (∃ cF cP, fpChunkDocument 0 c10Doc defaultChunkConfig = some [cF]
        ∧ p2ChunkDocument 0 c10Doc defaultChunkConfig = some [cP]
        ∧ cF.metadata.pageNumber ≠ cP.metadata.pageNumber) := by
  have hF : fpChunkDocument 0 c10Doc defaultChunkConfig
      = some [{ documentId := "doc-c10", content := ['a']
              , metadata := { startChar := 0, endChar := 0, pageNumber := none
                            , source := "a.txt", documentTitle := "a.txt" }
              , index := 0 }] := by decide
  have hP : p2ChunkDocument 0 c10Doc defaultChunkConfig
      = some [{ documentId := "doc-c10", content := ['a']
              , metadata := { startChar := 0, endChar := 0, pageNumber := some 1
                            , source := "a.txt", documentTitle := "a.txt" }
              , index := 0 }] := by
    rw [p2ChunkDocument, if_pos (by decide)]
    simp only [p2CreateChunkMetadata, c10Doc]
    norm_num
  refine ⟨?_, _, _, hF, hP, ?_⟩
  · rw [hF, hP]
    intro heq
    have := Option.some.inj heq
    simp at this
  · decide

/-- With `chunkOverlap = 0` and a positive chunk size both loops compute the
same windows and push the same chunk cores, and both terminate within any fuel
exceeding the remaining text length. -/
theorem chunk_loops_core_eq (doc : Doc) (cfg : ChunkConfig)
    (hov : cfg.chunkOverlap = 0) (hcs : 1 ≤ cfg.chunkSize) :
    ∀ (fuel : Nat) (s : Int) (idx : Nat) (accF accP : List Chunk),
      accF.map chunkCore = accP.map chunkCore →
      0 ≤ s → s < (doc.content.length : Int) →
      (doc.content.length : Int) - s < (fuel : Int) →
      ∃ l1 l2, fpChunkLoop doc cfg fuel s idx accF = some l1
        ∧ p2ChunkLoop doc cfg fuel s idx accP = some l2
        ∧ l1.map chunkCore = l2.map chunkCore := by
  intro fuel
  induction fuel with
  | zero =>
    intro s idx accF accP hacc hs0 hs1 hfuel
    exfalso
    simp only [Nat.cast_zero] at hfuel
    omega
  | succ n ih =>
    intro s idx accF accP hacc hs0 hs1 hfuel
    have he1 : s + 1 ≤ chunkEndIndex doc.content cfg s :=
      chunkEndIndex_ge_succ doc.content cfg s hs1 hcs
    have he2 : chunkEndIndex doc.content cfg s ≤ (doc.content.length : Int) :=
      chunkEndIndex_le doc.content cfg s hs0
    have hfuel2 : (doc.content.length : Int) - s ≤ (n : Int) := by
      push_cast at hfuel
      omega
    simp only [fpChunkLoop, p2ChunkLoop, if_pos hs1, hov, sub_zero]
    rw [if_pos (le_refl (chunkEndIndex doc.content cfg s)),
      max_eq_right he1]
    by_cases hpush :
        (jsTrim (jsSubstring doc.content s (chunkEndIndex doc.content cfg s))).length > 0
    · rw [if_pos hpush, if_pos hpush, if_pos hpush]
      have hacc2 : (mkLoopChunk doc fpCreateChunkMetadata s
            (chunkEndIndex doc.content cfg s) idx
            (jsTrim (jsSubstring doc.content s (chunkEndIndex doc.content cfg s))) :: accF).map
            chunkCore
          = (mkLoopChunk doc p2CreateChunkMetadata s
            (chunkEndIndex doc.content cfg s) idx
            (jsTrim (jsSubstring doc.content s (chunkEndIndex doc.content cfg s))) :: accP).map
            chunkCore := by
        simp only [List.map_cons, hacc]
        rfl
      by_cases hend : (doc.content.length : Int) ≤ chunkEndIndex doc.content cfg s
      · rw [if_pos (by omega : chunkEndIndex doc.content cfg s ≥ (doc.content.length : Int))]
        have hn1 : 1 ≤ n := by omega
        obtain ⟨m, rfl⟩ : ∃ m, n = m + 1 := ⟨n - 1, by omega⟩
        simp only [fpChunkLoop, if_neg (by omega :
          ¬ chunkEndIndex doc.content cfg s < (doc.content.length : Int))]
        refine ⟨_, _, rfl, rfl, ?_⟩
        simp only [List.map_reverse, hacc2]
      · rw [if_neg (by omega :
          ¬ chunkEndIndex doc.content cfg s ≥ (doc.content.length : Int))]
        exact ih (chunkEndIndex doc.content cfg s) (idx + 1) _ _ hacc2
          (by omega) (by omega) (by omega)
    · rw [if_neg hpush, if_neg hpush, if_neg hpush]
      by_cases hend : (doc.content.length : Int) ≤ chunkEndIndex doc.content cfg s
      · rw [if_pos (by omega : chunkEndIndex doc.content cfg s ≥ (doc.content.length : Int))]
        have hn1 : 1 ≤ n := by omega
        obtain ⟨m, rfl⟩ : ∃ m, n = m + 1 := ⟨n - 1, by omega⟩
        simp only [fpChunkLoop, if_neg (by omega :
          ¬ chunkEndIndex doc.content cfg s < (doc.content.length : Int))]
        refine ⟨_, _, rfl, rfl, ?_⟩
        simp only [List.map_reverse, hacc]
      · rw [if_neg (by omega :
          ¬ chunkEndIndex doc.content cfg s ≥ (doc.content.length : Int))]
        exact ih (chunkEndIndex doc.content cfg s) idx _ _ hacc
          (by omega) (by omega) (by omega)

/-- Claim C10 amended: whenever both loops terminate — in particular when the
content fits in a single chunk, or when `chunkOverlap = 0` with a positive
chunk size — the two chunkers return chunk lists with identical content,
index, `startChar` and `endChar`; their `pageNumber` metadata differs (and for
`content.length > chunkSize` with `chunkOverlap ≥ 1` the fileProcessing copy
does not terminate at all, see the C1 analysis). -/
theorem c10_amended (doc : Doc) (cfg : ChunkConfig)
    (h : (doc.content.length : Int) ≤ cfg.chunkSize
      ∨ (cfg.chunkOverlap = 0 ∧ 1 ≤ cfg.chunkSize)) :
    ∃ fuel l1 l2, fpChunkDocument fuel doc cfg = some l1
      ∧ p2ChunkDocument fuel doc cfg = some l2
      ∧ l1.map chunkCore = l2.map chunkCore := by
  by_cases hlen : (doc.content.length : Int) ≤ cfg.chunkSize
  · refine ⟨0,
      [{ documentId := doc.id, content := doc.content
       , metadata := fpCreateChunkMetadata doc 0 ((doc.content.length : Int) - 1)
       , index := 0 }],
      [{ documentId := doc.id, content := doc.content
       , metadata := p2CreateChunkMetadata doc 0 ((doc.content.length : Int) - 1)
       , index := 0 }], ?_, ?_, ?_⟩
    · rw [fpChunkDocument, if_pos hlen]
    · rw [p2ChunkDocument, if_pos hlen]
    · rfl
  · rcases h with h | ⟨hov, hcs⟩
    · exact absurd h hlen
    · have hs1 : 0 < (doc.content.length : Int) := by omega
      obtain ⟨l1, l2, h1, h2, hc⟩ :=
        chunk_loops_core_eq doc cfg hov hcs (doc.content.length + 1) 0 0 [] []
          rfl (le_refl 0) hs1 (by push_cast; omega)
      refine ⟨doc.content.length + 1, l1, l2, ?_, ?_, hc⟩
      · rw [fpChunkDocument, if_neg hlen]; exact h1
      · rw [p2ChunkDocument, if_neg hlen]; exact h2

theorem c10_witness :
    ((((['a', 'b'] : List Char).length : Int) ≤ (1 : Int)
        ∨ ((0 : Int) = 0 ∧ (1 : Int) ≤ 1))
    ∧ ∃ fuel l1 l2,
        fpChunkDocument fuel
          { id := "w10", filename := "w10.txt", content := ['a', 'b']
          , pageCount := none, source := "w10.txt" }
          { chunkSize := 1, chunkOverlap := 0, separators := [] } = some l1
        ∧ p2ChunkDocument fuel
            { id := "w10", filename := "w10.txt", content := ['a', 'b']
            , pageCount := none, source := "w10.txt" }
            { chunkSize := 1, chunkOverlap := 0, separators := [] } = some l2
        ∧ l1.map chunkCore = l2.map chunkCore) :=
  ⟨Or.inr ⟨rfl, le_refl 1⟩,
    c10_amended
      { id := "w10", filename := "w10.txt", content := ['a', 'b']
      , pageCount := none, source := "w10.txt" }
      { chunkSize := 1, chunkOverlap := 0, separators := [] }
      (Or.inr ⟨rfl, le_refl 1⟩)⟩

/-! ## Claim C3 -/

/-- Claim C3 counterexample: a whitespace-only text is filtered out before the
batch loop, so the output has fewer vectors than the input has texts; in
`embedDocumentChunks` the vectors then shift, a whitespace-only chunk receives
the embedding of the following chunk's content and the last chunk receives
none. (The external capability is the per-text function `length`, which
returns exactly one vector per submitted text.) -/
theorem c3_counterexample :
    (∃ l : List Nat, embedTexts (fun t => t.length) 10 [['a'], [' ']] = .ok l
        ∧ l.length ≠ ([['a'], [' ']] : List (List Char)).length)
    ∧ embedDocumentChunks (fun t => t.length) 10
        [ { documentId := "d", content := [' ']
          , metadata := { startChar := 0, endChar := 0, pageNumber := none
                        , source := "s", documentTitle := "s" }, index := 0 }
        , { documentId := "d", content := ['b']
          , metadata := { startChar := 1, endChar := 1, pageNumber := none
                        , source := "s", documentTitle := "s" }, index := 1 } ]
      = .ok
        [ ({ documentId := "d", content := [' ']
           , metadata := { startChar := 0, endChar := 0, pageNumber := none
                         , source := "s", documentTitle := "s" }, index := 0 }, some 1)
        , ({ documentId := "d", content := ['b']
           , metadata := { startChar := 1, endChar := 1, pageNumber := none
                         , source := "s", documentTitle := "s" }, index := 1 }, none) ] := by
  constructor
  · exact ⟨[1], by decide, by decide⟩
  · decide

/-- The batch loop applies the capability to every text, in order, whenever the
fuel covers the list and the batch size is positive. -/
theorem embedBatches_eq_map {V : Type} (embed : List Char → V) (batchSize : Nat)
    (hbs : 1 ≤ batchSize) :
    ∀ (fuel : Nat) (l : List (List Char)), l.length ≤ fuel →
      embedBatches embed batchSize fuel l = l.map embed := by
  intro fuel
  induction fuel with
  | zero =>
    intro l hl
    obtain rfl := List.eq_nil_of_length_eq_zero (Nat.le_zero.mp hl)
    rfl
  | succ n ih =>
    intro l hl
    cases l with
    | nil => rfl
    | cons t ts =>
      have hdrop : ((t :: ts).drop batchSize).length ≤ n := by
        rw [List.length_drop]
        simp only [List.length_cons] at hl ⊢
        omega
      simp only [embedBatches]
      rw [ih _ hdrop, ← List.map_append, List.take_append_drop]

/-- Attaching `embeddings[index]` with the embeddings list aligned from
position `i` pairs every chunk with the embedding of its own content. -/
theorem attachEmbeddings_map {V : Type} (f : Chunk → V) :
    ∀ (l : List Chunk) (i : Nat) (es : List V), es.drop i = l.map f →
      attachEmbeddings es i l = l.map fun c => (c, some (f c)) := by
  intro l
  induction l with
  | nil => intro i es h; rfl
  | cons c rest ih =>
    intro i es h
    have hget : es.get? i = some (f c) := by
      have h0 : (es.drop i).get? 0 = some (f c) := by rw [h]; rfl
      rw [List.get?_drop] at h0
      simpa using h0
    have hdrop : es.drop (i + 1) = rest.map f := by
      have h1 : (es.drop i).drop 1 = rest.map f := by rw [h]; rfl
      rw [List.drop_drop] at h1
      simpa [Nat.add_comm] using h1
    simp only [attachEmbeddings, List.map_cons]
    rw [hget, ih (i + 1) es hdrop]

/-- Claim C3 amended: when the batch size is positive and every input text is
non-empty after trimming, `embedTexts` returns exactly one vector per input
text, in order (the external capability applied to that text), and
`embedDocumentChunks` attaches to every chunk the embedding of that chunk's
own content; in general the output corresponds 1:1 to the inputs that survive
the emptiness filter, not to all inputs. -/
theorem c3_amended {V : Type} (embed : List Char → V) (batchSize : Nat)
    (hbs : 1 ≤ batchSize) :
    (∀ texts : List (List Char), texts ≠ [] →
      (∀ t ∈ texts, (jsTrim t).length > 0) →
      embedTexts embed batchSize texts = .ok (texts.map embed))
    ∧ (∀ chunks : List Chunk, chunks ≠ [] →
      (∀ c ∈ chunks, (jsTrim c.content).length > 0) →
      embedDocumentChunks embed batchSize chunks
        = .ok (chunks.map fun c => (c, some (embed c.content)))) := by
  have hmain : ∀ texts : List (List Char), texts ≠ [] →
      (∀ t ∈ texts, (jsTrim t).length > 0) →
      embedTexts embed batchSize texts = .ok (texts.map embed) := by
    intro texts hne hval
    have hfilter : (texts.filter fun t => (jsTrim t).length > 0) = texts :=
      List.filter_eq_self.mpr (by intro a ha; simpa using hval a ha)
    simp only [embedTexts, hfilter]
    rw [if_neg (by simpa [List.length_eq_zero] using hne),
      if_neg (by simpa [List.length_eq_zero] using hne)]
    rw [embedBatches_eq_map embed batchSize hbs texts.length texts (le_refl _)]
  refine ⟨hmain, ?_⟩
  intro chunks hne hval
  have hne2 : chunks.map (fun c => c.content) ≠ [] := by
    simpa [List.map_eq_nil] using hne
  have hval2 : ∀ t ∈ chunks.map fun c => c.content, (jsTrim t).length > 0 := by
    intro t ht
    obtain ⟨c, hc, rfl⟩ := List.mem_map.mp ht
    exact hval c hc
  simp only [embedDocumentChunks]
  rw [if_neg (by simpa [List.length_eq_zero] using hne)]
  rw [hmain (chunks.map fun c => c.content) hne2 hval2]
  show Except.ok (attachEmbeddings (List.map embed (List.map (fun c => c.content) chunks)) 0 chunks)
      = Except.ok (List.map (fun c => (c, some (embed c.content))) chunks)
  rw [attachEmbeddings_map (fun c => embed c.content) chunks 0
    (List.map embed (List.map (fun c => c.content) chunks)) (by simp [List.map_map])]

theorem c3_witness :
    embedTexts (fun t : List Char => t.length) 10 [['b'], ['c', 'd']]
      = .ok ([['b'], ['c', 'd']].map fun t => t.length) :=
  (c3_amended (fun t : List Char => t.length) 10 (by decide)).1
    [['b'], ['c', 'd']] (by decide) (by decide)

/-! ## Claim C8 -/

theorem dotList_nonneg (a : List ℝ) : 0 ≤ dotList a a := by
  induction a with
  | nil => simp [dotList]
  | cons x l ih =>
    simp only [dotList, List.zipWith_cons_cons, List.sum_cons] at ih ⊢
    nlinarith [mul_self_nonneg x]

theorem dotList_comm (a : List ℝ) : ∀ b, dotList a b = dotList b a := by
  induction a with
  | nil => intro b; cases b <;> rfl
  | cons x l ih =>
    intro b
    cases b with
    | nil => rfl
    | cons y m =>
      have ih2 := ih m
      simp only [dotList, List.zipWith_cons_cons, List.sum_cons] at ih2 ⊢
      rw [mul_comm x y, ih2]

/-- The inductive step of the Cauchy–Schwarz inequality for accumulated sums. -/
theorem cs_step (x y A B D : ℝ) (hA : 0 ≤ A) (hB : 0 ≤ B) (hD : D ^ 2 ≤ A * B) :
    (x * y + D) ^ 2 ≤ (x * x + A) * (y * y + B) := by
  rcases eq_or_lt_of_le hB with hB0 | hBpos
  · have hD0 : D = 0 := by nlinarith
    subst hD0
    nlinarith [mul_self_nonneg y, mul_self_nonneg x, sq_nonneg (x * y)]
  · nlinarith [sq_nonneg (x * B - y * D), mul_nonneg hA hB, sq_nonneg (x * y - D),
      sq_nonneg (x * y + D), mul_pos hBpos hBpos]

/-- Cauchy–Schwarz for the accumulated dot products of the similarity loop. -/
theorem dotList_sq_le (a : List ℝ) : ∀ b, (dotList a b) ^ 2 ≤ dotList a a * dotList b b := by
  induction a with
  | nil => intro b; simp [dotList]
  | cons x l ih =>
    intro b
    cases b with
    | nil => simp [dotList]
    | cons y m =>
      have hA := dotList_nonneg l
      have hB := dotList_nonneg m
      have hD := ih m
      simp only [dotList, List.zipWith_cons_cons, List.sum_cons] at hA hB hD ⊢
      exact cs_step x y _ _ _ hA hB hD

theorem dotList_self_pos {a : List ℝ} (h : ∃ x ∈ a, x ≠ 0) : 0 < dotList a a := by
  induction a with
  | nil => rcases h with ⟨x, hx, _⟩; cases hx
  | cons x l ih =>
    have hl := dotList_nonneg l
    simp only [dotList, List.zipWith_cons_cons, List.sum_cons]
    simp only [dotList] at hl
    rcases h with ⟨y, hy, hyne⟩
    rcases List.mem_cons.mp hy with rfl | hy2
    · have hpos : 0 < y * y := mul_self_pos.mpr hyne
      linarith
    · have hpos := ih ⟨y, hy2, hyne⟩
      simp only [dotList] at hpos
      nlinarith [mul_self_nonneg x]

/-- Claim C8 counterexample: on the one-dimensional vectors `[1]` and `[-1]`
`calculateSimilarity` returns `-1`, which is outside the claimed interval
`[0, 1]`. -/
theorem c8_counterexample :
    calculateSimilarity [(1 : ℝ)] [(-1 : ℝ)] = .ok (-1) ∧ ¬ (0 : ℝ) ≤ -1 := by
  constructor
  · rw [calculateSimilarity, if_neg (by norm_num)]
    have h1 : dotList [(1 : ℝ)] [(1 : ℝ)] = 1 := by norm_num [dotList]
    have h2 : dotList [(-1 : ℝ)] [(-1 : ℝ)] = 1 := by norm_num [dotList]
    have h3 : dotList [(1 : ℝ)] [(-1 : ℝ)] = -1 := by norm_num [dotList]
    rw [h1, h2, h3, Real.sqrt_one]
    norm_num
  · norm_num

/-- Claim C8 amended: for equal-length real vectors, `calculateSimilarity`
returns the dot product divided by the product of the magnitudes, clamping to
`0` when that product is not positive; the result always lies in `[-1, 1]`
(not `[0, 1]`: it is negative for anti-correlated vectors), is symmetric in
its arguments, and equals exactly `1` on any non-zero vector paired with
itself. -/
theorem c8_amended (a b : List ℝ) (hlen : a.length = b.length) :
    (∀ r, calculateSimilarity a b = .ok r → -1 ≤ r ∧ r ≤ 1)
    ∧ calculateSimilarity a b = calculateSimilarity b a
    ∧ (Real.sqrt (dotList a a) * Real.sqrt (dotList b b) = 0 →
        calculateSimilarity a b = .ok 0)
    ∧ ((∃ x ∈ a, x ≠ 0) → calculateSimilarity a a = .ok 1) := by
  have hne : ¬ a.length ≠ b.length := fun h => h hlen
  refine ⟨?_, ?_, ?_, ?_⟩
  · intro r hr
    rw [calculateSimilarity, if_neg hne] at hr
    have hr2 := Except.ok.inj hr
    by_cases hm : Real.sqrt (dotList a a) * Real.sqrt (dotList b b) > 0
    · rw [if_pos hm] at hr2
      subst hr2
      have habs : |dotList a b| ≤ Real.sqrt (dotList a a) * Real.sqrt (dotList b b) := by
        have h1 : |dotList a b| = Real.sqrt ((dotList a b) ^ 2) :=
          (Real.sqrt_sq_eq_abs _).symm
        rw [h1, ← Real.sqrt_mul (dotList_nonneg a) (dotList b b)]
        exact Real.sqrt_le_sqrt (dotList_sq_le a b)
      rw [abs_le] at habs
      constructor
      · rw [le_div_iff hm]
        linarith [habs.1]
      · rw [div_le_one hm]
        exact habs.2
    · rw [if_neg hm] at hr2
      subst hr2
      norm_num
  · rw [calculateSimilarity, calculateSimilarity, if_neg hne,
      if_neg (fun h => h hlen.symm)]
    rw [dotList_comm a b, mul_comm (Real.sqrt (dotList a a)) (Real.sqrt (dotList b b))]
  · intro hm0
    rw [calculateSimilarity, if_neg hne]
    show Except.ok (if Real.sqrt (dotList a a) * Real.sqrt (dotList b b) > 0 then
        dotList a b / (Real.sqrt (dotList a a) * Real.sqrt (dotList b b)) else 0)
      = Except.ok 0
    rw [if_neg (by rw [hm0]; exact lt_irrefl 0)]
  · intro hx
    have hpos := dotList_self_pos hx
    rw [calculateSimilarity, if_neg (fun h => h rfl)]
    show Except.ok (if Real.sqrt (dotList a a) * Real.sqrt (dotList a a) > 0 then
        dotList a a / (Real.sqrt (dotList a a) * Real.sqrt (dotList a a)) else 0)
      = Except.ok 1
    rw [Real.mul_self_sqrt (dotList_nonneg a), if_pos hpos,
      div_self (ne_of_gt hpos)]

theorem c8_witness : calculateSimilarity [(1 : ℝ)] [(1 : ℝ)] = .ok 1 :=
  (c8_amended [1] [1] rfl).2.2.2 ⟨1, by simp, one_ne_zero⟩

/-! ## Claim C9: lemmas about contiguous occurrences -/

theorem leadsWith_nil_any (l : List Char) : LeadsWith [] l := ⟨l, rfl⟩

theorem not_leadsWith_cons_nil (a : Char) (p : List Char) :
    ¬ LeadsWith (a :: p) ([] : List Char) := by
  rintro ⟨y, hy⟩
  simp at hy

theorem leadsWith_cons_iff {a c : Char} {p l : List Char} :
    LeadsWith (a :: p) (c :: l) ↔ a = c ∧ LeadsWith p l := by
  constructor
  · rintro ⟨y, hy⟩
    rw [List.cons_append] at hy
    injection hy with h1 h2
    exact ⟨h1.symm, y, h2⟩
  · rintro ⟨rfl, y, hy⟩
    exact ⟨y, by rw [hy, List.cons_append]⟩

theorem containsSeq_cons_iff {p : List Char} {c : Char} {l : List Char} :
    ContainsSeq p (c :: l) ↔ LeadsWith p (c :: l) ∨ ContainsSeq p l := by
  constructor
  · rintro ⟨x, y, hy⟩
    cases x with
    | nil => exact Or.inl ⟨y, by simpa using hy⟩
    | cons a x2 =>
      rw [List.cons_append] at hy
      injection hy with h1 h2
      exact Or.inr ⟨x2, y, h2⟩
  · rintro (⟨y, hy⟩ | ⟨x, y, hy⟩)
    · exact ⟨[], y, by simpa using hy⟩
    · exact ⟨c :: x, y, by rw [hy, List.cons_append]⟩

theorem containsSeq_tail {p l : List Char} (c : Char) (h : ContainsSeq p l) :
    ContainsSeq p (c :: l) :=
  containsSeq_cons_iff.mpr (Or.inr h)

theorem containsSeq_length {p l : List Char} (h : ContainsSeq p l) :
    p.length ≤ l.length := by
  obtain ⟨x, y, rfl⟩ := h
  simp only [List.length_append]
  omega

theorem containsSeq_mem {p l : List Char} (h : ContainsSeq p l) :
    ∀ a ∈ p, a ∈ l := by
  obtain ⟨x, y, rfl⟩ := h
  intro a ha
  exact List.mem_append.mpr (Or.inr (List.mem_append.mpr (Or.inl ha)))

theorem containsSeq_append_right (A : List Char) {B p : List Char}
    (h : ContainsSeq p B) : ContainsSeq p (A ++ B) := by
  obtain ⟨x, y, rfl⟩ := h
  exact ⟨A ++ x, y, by simp⟩

theorem containsSeq_append_elim {h0 : Char} {t B : List Char} :
    ∀ A : List Char, (∀ a ∈ A, a ≠ h0) →
      ContainsSeq (h0 :: t) (A ++ B) → ContainsSeq (h0 :: t) B := by
  intro A
  induction A with
  | nil => intro _ h; simpa using h
  | cons a A2 ih =>
    intro hA h
    rw [List.cons_append] at h
    rcases containsSeq_cons_iff.mp h with hl | h2
    · rw [leadsWith_cons_iff] at hl
      exact absurd hl.1.symm (hA a (List.mem_cons_self a A2))
    · exact ih (fun b hb => hA b (List.mem_cons_of_mem a hb)) h2

theorem containsSeq_reverse_of {p l : List Char} (h : ContainsSeq p l.reverse) :
    ContainsSeq p.reverse l := by
  obtain ⟨x, y, hy⟩ := h
  refine ⟨y.reverse, x.reverse, ?_⟩
  have := congrArg List.reverse hy
  simpa [List.reverse_append, List.append_assoc] using this

theorem containsSeq_dropWhile {p : Char → Bool} {q l : List Char}
    (h : ContainsSeq q (l.dropWhile p)) : ContainsSeq q l := by
  obtain ⟨t, ht⟩ : l.dropWhile p <:+ l := List.dropWhile_suffix p
  rw [← ht]
  exact containsSeq_append_right t h

theorem containsSeq_jsTrim {q l : List Char} (hq : q.reverse = q)
    (h : ContainsSeq q (jsTrim l)) : ContainsSeq q l := by
  rw [jsTrim] at h
  have h1 := containsSeq_reverse_of h
  rw [hq] at h1
  have h2 := containsSeq_dropWhile h1
  have h3 := containsSeq_reverse_of h2
  rw [hq] at h3
  exact containsSeq_dropWhile h3

theorem dropWhile_head_false {p : Char → Bool} :
    ∀ {l x : List Char} {c : Char}, l.dropWhile p = c :: x → p c = false := by
  intro l
  induction l with
  | nil => intro x c h; simp [List.dropWhile] at h
  | cons a rest ih =>
    intro x c h
    rw [List.dropWhile_cons] at h
    by_cases ha : p a = true
    · rw [if_pos ha] at h; exact ih h
    · rw [if_neg ha] at h
      injection h with h1 _
      subst h1
      exact Bool.eq_false_iff.mpr ha

theorem mem_of_mem_takeWhile {p : Char → Bool} :
    ∀ {l : List Char} {c : Char}, c ∈ l.takeWhile p → c ∈ l := by
  intro l
  induction l with
  | nil => intro c h; simp [List.takeWhile] at h
  | cons a rest ih =>
    intro c h
    rw [List.takeWhile_cons] at h
    by_cases ha : p a = true
    · rw [if_pos ha] at h
      rcases List.mem_cons.mp h with rfl | h2
      · exact List.mem_cons_self _ _
      · exact List.mem_cons_of_mem a (ih h2)
    · rw [if_neg ha] at h
      simp at h

theorem mem_of_mem_dropWhile {p : Char → Bool} {l : List Char} {c : Char}
    (h : c ∈ l.dropWhile p) : c ∈ l := by
  obtain ⟨t, ht⟩ : l.dropWhile p <:+ l := List.dropWhile_suffix p
  rw [← ht]
  exact List.mem_append.mpr (Or.inr h)

theorem mem_jsTrim {l : List Char} {c : Char} (h : c ∈ jsTrim l) : c ∈ l := by
  rw [jsTrim] at h
  rw [List.mem_reverse] at h
  have h2 := mem_of_mem_dropWhile h
  rw [List.mem_reverse] at h2
  exact mem_of_mem_dropWhile h2

/-! ## Claim C9: membership through each normalization stage -/

theorem not_cr_mem_replaceCR (l : List Char) : '\r' ∉ replaceCR l := by
  intro h
  obtain ⟨y, _, hfy⟩ := List.mem_map.mp h
  by_cases hy : y = '\r'
  · rw [if_pos hy] at hfy; exact absurd hfy (by decide)
  · rw [if_neg hy] at hfy; exact hy hfy

theorem not_tab_mem_tabToSpace (l : List Char) : '\t' ∉ tabToSpace l := by
  intro h
  obtain ⟨y, _, hfy⟩ := List.mem_map.mp h
  by_cases hy : y = '\t'
  · rw [if_pos hy] at hfy; exact absurd hfy (by decide)
  · rw [if_neg hy] at hfy; exact hy hfy

theorem mem_tabToSpace_of_ne {l : List Char} {c : Char} (hc : c ≠ ' ')
    (h : c ∈ tabToSpace l) : c ∈ l := by
  obtain ⟨y, hy, hfy⟩ := List.mem_map.mp h
  by_cases ht : y = '\t'
  · rw [if_pos ht] at hfy; exact absurd hfy.symm hc
  · rw [if_neg ht] at hfy; rwa [← hfy]

theorem mem_collapseNLAux :
    ∀ (l : List Char) (k : Nat) (c : Char), c ∈ collapseNLAux k l → c = '\n' ∨ c ∈ l := by
  intro l
  induction l with
  | nil =>
    intro k c h
    exact Or.inl (List.eq_of_mem_replicate (by simpa [collapseNLAux] using h))
  | cons a rest ih =>
    intro k c h
    rw [collapseNLAux] at h
    by_cases ha : a = '\n'
    · rw [if_pos ha] at h
      rcases ih (k + 1) c h with h2 | h2
      · exact Or.inl h2
      · exact Or.inr (List.mem_cons_of_mem a h2)
    · rw [if_neg ha] at h
      rcases List.mem_append.mp h with h2 | h2
      · exact Or.inl (List.eq_of_mem_replicate h2)
      · rcases List.mem_cons.mp h2 with rfl | h3
        · exact Or.inr (List.mem_cons_self _ _)
        · rcases ih 0 c h3 with h4 | h4
          · exact Or.inl h4
          · exact Or.inr (List.mem_cons_of_mem a h4)

theorem mem_collapseSpacesAux :
    ∀ (l : List Char) (k : Nat) (c : Char), c ∈ collapseSpacesAux k l → c = ' ' ∨ c ∈ l := by
  intro l
  induction l with
  | nil =>
    intro k c h
    exact Or.inl (List.eq_of_mem_replicate (by simpa [collapseSpacesAux] using h))
  | cons a rest ih =>
    intro k c h
    rw [collapseSpacesAux] at h
    by_cases ha : a = ' '
    · rw [if_pos ha] at h
      rcases ih (k + 1) c h with h2 | h2
      · exact Or.inl h2
      · exact Or.inr (List.mem_cons_of_mem a h2)
    · rw [if_neg ha] at h
      rcases List.mem_append.mp h with h2 | h2
      · exact Or.inl (List.eq_of_mem_replicate h2)
      · rcases List.mem_cons.mp h2 with rfl | h3
        · exact Or.inr (List.mem_cons_self _ _)
        · rcases ih 0 c h3 with h4 | h4
          · exact Or.inl h4
          · exact Or.inr (List.mem_cons_of_mem a h4)

theorem mem_collapseSpaceTabAux :
    ∀ (l : List Char) (k : Nat) (c : Char), c ∈ collapseSpaceTabAux k l → c = ' ' ∨ c ∈ l := by
  intro l
  induction l with
  | nil =>
    intro k c h
    exact Or.inl (List.eq_of_mem_replicate (by simpa [collapseSpaceTabAux] using h))
  | cons a rest ih =>
    intro k c h
    rw [collapseSpaceTabAux] at h
    by_cases ha : a = ' ' ∨ a = '\t'
    · rw [if_pos ha] at h
      rcases ih (k + 1) c h with h2 | h2
      · exact Or.inl h2
      · exact Or.inr (List.mem_cons_of_mem a h2)
    · rw [if_neg ha] at h
      rcases List.mem_append.mp h with h2 | h2
      · exact Or.inl (List.eq_of_mem_replicate h2)
      · rcases List.mem_cons.mp h2 with rfl | h3
        · exact Or.inr (List.mem_cons_self _ _)
        · rcases ih 0 c h3 with h4 | h4
          · exact Or.inl h4
          · exact Or.inr (List.mem_cons_of_mem a h4)

theorem mem_gmRunEmit {run : List Char} {c : Char} (h : c ∈ gmRunEmit run) :
    c = '\n' ∨ c ∈ run := by
  rcases hpos : lastNLPos run with _ | j
  · simp only [gmRunEmit, hpos] at h
    exact Or.inr h
  · simp only [gmRunEmit, hpos] at h
    by_cases hcond : 1 ≤ j ∧ run.get? (j - 1) = some '\n'
    · rw [if_pos hcond] at h; simp at h
    · rw [if_neg hcond] at h
      rcases List.mem_cons.mp h with rfl | h2
      · exact Or.inl rfl
      · simp at h2

theorem mem_gmTrimAux :
    ∀ (fuel : Nat) (l : List Char) (b : Bool) (c : Char),
      c ∈ gmTrimAux fuel b l → c = '\n' ∨ c ∈ l := by
  intro fuel
  induction fuel with
  | zero => intro l b c h; simp [gmTrimAux] at h
  | succ n ih =>
    intro l b c h
    cases l with
    | nil => simp [gmTrimAux] at h
    | cons a rest =>
      rw [gmTrimAux] at h
      by_cases ha : isWS a = true
      · rw [if_pos ha] at h
        by_cases hr : (rest.dropWhile isWS).length = 0
        · rw [if_pos hr] at h; simp at h
        · rw [if_neg hr] at h
          by_cases hb : b = true
          · rw [if_pos hb] at h
            rcases ih _ _ _ h with h2 | h2
            · exact Or.inl h2
            · exact Or.inr (List.mem_cons_of_mem a (mem_of_mem_dropWhile h2))
          · rw [if_neg hb] at h
            rcases List.mem_append.mp h with h2 | h2
            · rcases mem_gmRunEmit h2 with h3 | h3
              · exact Or.inl h3
              · rcases List.mem_cons.mp h3 with rfl | h4
                · exact Or.inr (List.mem_cons_self _ _)
                · exact Or.inr (List.mem_cons_of_mem a (mem_of_mem_takeWhile h4))
            · rcases ih _ _ _ h2 with h3 | h3
              · exact Or.inl h3
              · exact Or.inr (List.mem_cons_of_mem a (mem_of_mem_dropWhile h3))
      · rw [if_neg ha] at h
        rcases List.mem_cons.mp h with rfl | h2
        · exact Or.inr (List.mem_cons_self _ _)
        · rcases ih _ _ _ h2 with h3 | h3
          · exact Or.inl h3
          · exact Or.inr (List.mem_cons_of_mem a h3)

/-! ## Claim C9: no long newline runs survive the collapsing stages -/

theorem not_containsSeq_replicate_space (j n : Nat) (hn : 1 ≤ n) :
    ¬ ContainsSeq (List.replicate n '\n') (List.replicate j ' ') := by
  intro h
  have hmem := containsSeq_mem h '\n' (by
    rw [List.mem_replicate]
    exact ⟨by omega, rfl⟩)
  exact absurd (List.eq_of_mem_replicate hmem) (by decide)

theorem noNNN_replicate_append (j : Nat) (hj : j ≤ 2) (c : Char) (hc : c ≠ '\n')
    (B : List Char) (hB : ¬ ContainsSeq (List.replicate 3 '\n') B) :
    ¬ ContainsSeq (List.replicate 3 '\n') (List.replicate j '\n' ++ c :: B) := by
  have hrep3 : (List.replicate 3 '\n' : List Char) = '\n' :: '\n' :: '\n' :: [] := rfl
  have hcB : ¬ ContainsSeq (List.replicate 3 '\n') (c :: B) := by
    intro h
    rcases containsSeq_cons_iff.mp h with hl | h2
    · rw [hrep3, leadsWith_cons_iff] at hl
      exact hc hl.1.symm
    · exact hB h2
  have hncB : ¬ ContainsSeq (List.replicate 3 '\n') ('\n' :: c :: B) := by
    intro h
    rcases containsSeq_cons_iff.mp h with hl | h2
    · rw [hrep3, leadsWith_cons_iff, leadsWith_cons_iff] at hl
      exact hc hl.2.1.symm
    · exact hcB h2
  have hnncB : ¬ ContainsSeq (List.replicate 3 '\n') ('\n' :: '\n' :: c :: B) := by
    intro h
    rcases containsSeq_cons_iff.mp h with hl | h2
    · rw [hrep3, leadsWith_cons_iff, leadsWith_cons_iff, leadsWith_cons_iff] at hl
      exact hc hl.2.2.1.symm
    · exact hncB h2
  interval_cases j
  · simpa using hcB
  · simpa [List.replicate] using hncB
  · simpa [List.replicate] using hnncB

theorem collapseNLAux_noNNN :
    ∀ (l : List Char) (k : Nat),
      ¬ ContainsSeq (List.replicate 3 '\n') (collapseNLAux k l) := by
  intro l
  induction l with
  | nil =>
    intro k h
    have hlen := containsSeq_length h
    simp only [collapseNLAux, List.length_replicate] at hlen
    omega
  | cons a rest ih =>
    intro k h
    rw [collapseNLAux] at h
    by_cases ha : a = '\n'
    · rw [if_pos ha] at h; exact ih (k + 1) h
    · rw [if_neg ha] at h
      exact noNNN_replicate_append (min k 2) (min_le_right k 2) a ha _ (ih 0) h

theorem leadsWith_nl_map {f : Char → Char} (hf : ∀ y, f y = '\n' → y = '\n') :
    ∀ (n : Nat) (l : List Char),
      LeadsWith (List.replicate n '\n') (l.map f) →
      LeadsWith (List.replicate n '\n') l := by
  intro n
  induction n with
  | zero => intro l _; exact leadsWith_nil_any l
  | succ m ih =>
    intro l h
    rw [List.replicate_succ] at h ⊢
    cases l with
    | nil =>
      rw [List.map_nil] at h
      exact absurd h (not_leadsWith_cons_nil _ _)
    | cons y rest =>
      rw [List.map_cons, leadsWith_cons_iff] at h
      rw [leadsWith_cons_iff]
      exact ⟨(hf y h.1.symm).symm, ih rest h.2⟩

theorem containsSeq_nl_map {f : Char → Char} (hf : ∀ y, f y = '\n' → y = '\n') :
    ∀ l : List Char,
      ContainsSeq (List.replicate 3 '\n') (l.map f) →
      ContainsSeq (List.replicate 3 '\n') l := by
  intro l
  induction l with
  | nil =>
    intro h
    have := containsSeq_length h
    simp at this
  | cons y rest ih =>
    intro h
    rw [List.map_cons] at h
    rcases containsSeq_cons_iff.mp h with hl | h2
    · rw [← List.map_cons] at hl
      obtain ⟨z, hz⟩ := leadsWith_nl_map hf 3 (y :: rest) hl
      exact ⟨[], z, by simpa using hz⟩
    · exact containsSeq_tail y (ih h2)

theorem collapseSpacesAux_head_space :
    ∀ (l : List Char) (k : Nat), ∃ t, collapseSpacesAux (k + 1) l = ' ' :: t := by
  intro l
  induction l with
  | nil =>
    intro k
    refine ⟨[], ?_⟩
    rw [collapseSpacesAux]
    have h1 : min (k + 1) 1 = 1 := by omega
    rw [h1]
    rfl
  | cons a rest ih =>
    intro k
    rw [collapseSpacesAux]
    by_cases ha : a = ' '
    · rw [if_pos ha]; exact ih (k + 1)
    · rw [if_neg ha]
      have h1 : min (k + 1) 1 = 1 := by omega
      exact ⟨a :: collapseSpacesAux 0 rest, by rw [h1]; rfl⟩

theorem leadsWith_nl_collapseSpacesAux :
    ∀ (l : List Char) (n : Nat), 1 ≤ n →
      LeadsWith (List.replicate n '\n') (collapseSpacesAux 0 l) →
      LeadsWith (List.replicate n '\n') l := by
  intro l
  induction l with
  | nil =>
    intro n hn h
    rw [show collapseSpacesAux 0 ([] : List Char) = [] from rfl] at h
    obtain ⟨m, rfl⟩ : ∃ m, n = m + 1 := ⟨n - 1, by omega⟩
    rw [List.replicate_succ] at h
    exact absurd h (not_leadsWith_cons_nil _ _)
  | cons a rest ih =>
    intro n hn h
    rw [collapseSpacesAux] at h
    by_cases ha : a = ' '
    · rw [if_pos ha] at h
      obtain ⟨t, ht⟩ := collapseSpacesAux_head_space rest 0
      rw [ht] at h
      obtain ⟨m, rfl⟩ : ∃ m, n = m + 1 := ⟨n - 1, by omega⟩
      rw [List.replicate_succ, leadsWith_cons_iff] at h
      exact absurd h.1 (by decide)
    · rw [if_neg ha] at h
      simp only [Nat.zero_min, List.replicate_zero, List.nil_append] at h
      obtain ⟨m, rfl⟩ : ∃ m, n = m + 1 := ⟨n - 1, by omega⟩
      rw [List.replicate_succ, leadsWith_cons_iff] at h ⊢
      refine ⟨h.1, ?_⟩
      rcases Nat.eq_zero_or_pos m with rfl | hm
      · exact leadsWith_nil_any rest
      · exact ih m hm h.2

theorem containsSeq_nl_collapseSpacesAux :
    ∀ (l : List Char) (k : Nat),
      ContainsSeq (List.replicate 3 '\n') (collapseSpacesAux k l) →
      ContainsSeq (List.replicate 3 '\n') l := by
  intro l
  induction l with
  | nil =>
    intro k h
    rw [collapseSpacesAux] at h
    exact absurd h (not_containsSeq_replicate_space _ 3 (by omega))
  | cons a rest ih =>
    intro k h
    rw [collapseSpacesAux] at h
    by_cases ha : a = ' '
    · rw [if_pos ha] at h
      exact containsSeq_tail a (ih (k + 1) h)
    · rw [if_neg ha] at h
      have h2 := containsSeq_append_elim (List.replicate (min k 1) ' ')
        (fun b hb => by rw [List.eq_of_mem_replicate hb]; decide) h
      rcases containsSeq_cons_iff.mp h2 with hl | h3
      · rw [leadsWith_cons_iff] at hl
        obtain ⟨z, hz⟩ := leadsWith_nl_collapseSpacesAux rest 2 (by omega) hl.2
        refine ⟨[], z, ?_⟩
        rw [hz, ← hl.1]
        rfl
      · exact containsSeq_tail a (ih 0 h3)

theorem lastNLPos_none_not_mem {run : List Char} (h : lastNLPos run = none) :
    '\n' ∉ run := by
  intro hmem
  obtain ⟨j, hget⟩ := List.mem_iff_get?.mp hmem
  have hj : j < run.length := by
    by_contra hj
    rw [List.get?_eq_none.mpr (by omega)] at hget
    cases hget
  rw [lastNLPos, List.find?_eq_none] at h
  refine absurd ?_ (h j (by rw [List.mem_reverse]; exact List.mem_range.mpr hj))
  rw [hget]
  rfl

theorem gmTrimAux_noNN :
    ∀ (fuel : Nat) (l : List Char) (b : Bool),
      ¬ ContainsSeq (List.replicate 2 '\n') (gmTrimAux fuel b l) := by
  intro fuel
  induction fuel with
  | zero =>
    intro l b h
    have := containsSeq_length h
    simp [gmTrimAux] at this
  | succ n ih =>
    intro l b h
    cases l with
    | nil =>
      have := containsSeq_length h
      simp [gmTrimAux] at this
    | cons a rest =>
      rw [gmTrimAux] at h
      by_cases ha : isWS a = true
      · rw [if_pos ha] at h
        by_cases hr : (rest.dropWhile isWS).length = 0
        · rw [if_pos hr] at h
          have := containsSeq_length h
          simp at this
        · rw [if_neg hr] at h
          by_cases hb : b = true
          · rw [if_pos hb] at h; exact ih _ _ h
          · rw [if_neg hb] at h
            rcases hpos : lastNLPos (a :: rest.takeWhile isWS) with _ | j
            · simp only [gmRunEmit, hpos] at h
              have hnot : ∀ x ∈ a :: rest.takeWhile isWS, x ≠ '\n' := by
                intro x hx hxnl
                exact lastNLPos_none_not_mem hpos (hxnl ▸ hx)
              exact ih _ _ (containsSeq_append_elim _ hnot h)
            · simp only [gmRunEmit, hpos] at h
              by_cases hcond : 1 ≤ j ∧ (a :: rest.takeWhile isWS).get? (j - 1) = some '\n'
              · rw [if_pos hcond, List.nil_append] at h
                exact ih _ _ h
              · rw [if_neg hcond] at h
                rw [List.singleton_append] at h
                rcases containsSeq_cons_iff.mp h with hl | h2
                · rw [show (List.replicate 2 '\n' : List Char) = '\n' :: '\n' :: [] from rfl,
                    leadsWith_cons_iff] at hl
                  obtain ⟨_, hl2⟩ := hl
                  obtain ⟨x, xs, hx⟩ : ∃ x xs, rest.dropWhile isWS = x :: xs := by
                    rcases hd : rest.dropWhile isWS with _ | ⟨x, xs⟩
                    · rw [hd] at hr; simp at hr
                    · exact ⟨x, xs, rfl⟩
                  have hxws : isWS x = false := dropWhile_head_false hx
                  rw [hx] at hl2
                  cases n with
                  | zero =>
                    rw [show gmTrimAux 0 false (x :: xs) = [] from rfl] at hl2
                    exact absurd hl2 (not_leadsWith_cons_nil _ _)
                  | succ m =>
                    rw [gmTrimAux, if_neg (by rw [hxws]; exact Bool.false_ne_true)] at hl2
                    rw [leadsWith_cons_iff] at hl2
                    rw [← hl2.1] at hxws
                    exact absurd hxws (by decide)
                · exact ih _ _ h2
      · rw [if_neg ha] at h
        rcases containsSeq_cons_iff.mp h with hl | h2
        · rw [show (List.replicate 2 '\n' : List Char) = '\n' :: '\n' :: [] from rfl,
            leadsWith_cons_iff] at hl
          rw [← hl.1] at ha
          exact ha (by decide)
        · exact ih _ _ h2

/-! ## Claim C9: whole-string trimming -/

theorem jsTrim_getLast_not_ws {l : List Char} {c : Char}
    (h : (jsTrim l).getLast? = some c) : isWS c = false := by
  rw [jsTrim, List.getLast?_reverse] at h
  rcases hd : ((l.dropWhile isWS).reverse).dropWhile isWS with _ | ⟨x, xs⟩
  · rw [hd] at h; cases h
  · rw [hd] at h
    injection h with h1
    rw [← h1]
    exact dropWhile_head_false hd

theorem jsTrim_head_not_ws {l : List Char} {c : Char}
    (h : (jsTrim l).head? = some c) : isWS c = false := by
  rw [jsTrim, List.head?_reverse] at h
  rcases hd : ((l.dropWhile isWS).reverse).dropWhile isWS with _ | ⟨x, xs⟩
  · rw [hd] at h; cases h
  · rw [hd] at h
    obtain ⟨t, ht⟩ : ((l.dropWhile isWS).reverse).dropWhile isWS <:+ (l.dropWhile isWS).reverse :=
      List.dropWhile_suffix isWS
    have hlast : ((l.dropWhile isWS).reverse).getLast? = some c := by
      rw [← ht, List.getLast?_append_of_ne_nil t (by rw [hd]; exact List.cons_ne_nil x xs)]
      rw [hd]
      exact h
    rw [List.getLast?_reverse] at hlast
    rcases hd2 : l.dropWhile isWS with _ | ⟨y, ys⟩
    · rw [hd2] at hlast; cases hlast
    · rw [hd2] at hlast
      injection hlast with h2
      rw [← h2]
      exact dropWhile_head_false hd2

/-! ## Claim C9: the theorems -/

/-- Claim C9 counterexample: the fileProcessing copy does not trim individual
lines — on input `"a \nb"` the trailing space of the first line survives — and
the server-only copy does not collapse 3+ newlines to one blank line: its
per-line trim (whose whitespace class contains the newline itself) deletes the
blank line entirely, turning `"a\n\n\nb"` into `"ab"`. -/
theorem c9_counterexample :
    fpCleanText ['a', ' ', '\n', 'b'] = ['a', ' ', '\n', 'b']
    ∧ p2CleanText ['a', '\n', '\n', '\n', 'b'] = ['a', 'b'] := by
  constructor
  · decide
  · decide

/-- Claim C9 amended: both copies of `cleanText` are total, eliminate every
carriage return, and trim the whole string (the first and last character of
the output are never whitespace); the fileProcessing copy also eliminates
tabs and its output never contains three consecutive newlines (3+ newline
runs collapse to one blank line), but it does not trim the interior lines;
the server-only copy trims lines with a whitespace class that includes the
newline, so its output never contains even two consecutive newlines — blank
lines are deleted rather than preserved. -/
theorem c9_amended (s : List Char) :
    ('\r' ∉ fpCleanText s ∧ '\t' ∉ fpCleanText s ∧ '\r' ∉ p2CleanText s)
    ∧ ¬ ContainsSeq (List.replicate 3 '\n') (fpCleanText s)
    ∧ ¬ ContainsSeq (List.replicate 2 '\n') (p2CleanText s)
    ∧ (∀ c : Char,
        ((fpCleanText s).head? = some c ∨ (fpCleanText s).getLast? = some c
          ∨ (p2CleanText s).head? = some c ∨ (p2CleanText s).getLast? = some c) →
        isWS c = false) := by
  refine ⟨⟨?_, ?_, ?_⟩, ?_, ?_, ?_⟩
  · intro h
    have h1 := mem_jsTrim h
    rcases mem_collapseSpacesAux _ 0 _ h1 with h2 | h2
    · exact absurd h2 (by decide)
    · have h3 := mem_tabToSpace_of_ne (by decide) h2
      rcases mem_collapseNLAux _ 0 _ h3 with h4 | h4
      · exact absurd h4 (by decide)
      · exact not_cr_mem_replaceCR _ h4
  · intro h
    have h1 := mem_jsTrim h
    rcases mem_collapseSpacesAux _ 0 _ h1 with h2 | h2
    · exact absurd h2 (by decide)
    · exact not_tab_mem_tabToSpace _ h2
  · intro h
    have h1 := mem_jsTrim h
    rcases mem_gmTrimAux _ _ _ _ h1 with h2 | h2
    · exact absurd h2 (by decide)
    · rcases mem_collapseSpaceTabAux _ 0 _ h2 with h3 | h3
      · exact absurd h3 (by decide)
      · rcases mem_collapseNLAux _ 0 _ h3 with h4 | h4
        · exact absurd h4 (by decide)
        · exact not_cr_mem_replaceCR _ h4
  · intro h
    have h1 := containsSeq_jsTrim (List.reverse_replicate 3 '\n') h
    have h2 := containsSeq_nl_collapseSpacesAux _ 0 h1
    have h3 := @containsSeq_nl_map
      (fun c => if c = '\t' then ' ' else c)
      (fun y hy => by
        have hy2 : (if y = '\t' then ' ' else y) = '\n' := hy
        by_cases ht : y = '\t'
        · rw [if_pos ht] at hy2; exact absurd hy2 (by decide)
        · rwa [if_neg ht] at hy2) _ h2
    exact collapseNLAux_noNNN _ 0 h3
  · intro h
    have h1 := containsSeq_jsTrim (List.reverse_replicate 2 '\n') h
    exact gmTrimAux_noNN _ _ _ h1
  · intro c hc
    rcases hc with hc | hc | hc | hc
    · exact jsTrim_head_not_ws hc
    · exact jsTrim_getLast_not_ws hc
    · exact jsTrim_head_not_ws hc
    · exact jsTrim_getLast_not_ws hc

theorem c9_witness :
    ((fpCleanText ['x', ' ', 'y']).head? = some 'x') ∧ isWS 'x' = false :=
  ⟨by decide, (c9_amended ['x', ' ', 'y']).2.2.2 'x' (Or.inl (by decide))⟩

theorem c6_witness :
    (c6Doc.content = []) ∧ (0 : Int) ≤ defaultChunkConfig.chunkSize
    ∧ ((∃ c, fpChunkDocument 0 c6Doc defaultChunkConfig = some [c]
          ∧ c.content = [] ∧ c.index = 0
          ∧ c.metadata.startChar = 0 ∧ c.metadata.endChar = -1)
      ∧ (∃ c, p2ChunkDocument 0 c6Doc defaultChunkConfig = some [c]
          ∧ c.content = [] ∧ c.index = 0
          ∧ c.metadata.startChar = 0 ∧ c.metadata.endChar = -1)) :=
  ⟨rfl, by decide, c6_amended c6Doc defaultChunkConfig 0 rfl (by decide)⟩

end RagCore
